import Mathlib

/-!
# Cpp-Filesystem-Lite: the path value type and the POSIX glob matcher

A shallow embedding of `src/filesystem.h` in the configuration the header
selects when neither `_WIN32` nor `_WIN64` is defined (`FS_POSIX_`): that is
the only configuration in which `internal::glob_match` exists, and in it
`internal::compare_path_element` is plain equality and `initialize` does not
strip an extended-path marker.

* `string_t` is a list of code units (`List Char`), `string_t::npos` is `none`.
* An exception is the `throws` outcome, carrying which `filesystem_error` it is.
* `remove_double_elipses` is a `while (!isDone)` loop that does not always
  terminate.  One iteration of it is `rde_pass`; `rde_loop` runs it on a
  budget of iterations; `remove_double_elipses` gives the budget the loop
  can use at most, and the lemmas `rde_loop_stable` and `rde_loop_budget`
  show that its answer `none` is exactly "no budget is enough", which is the
  `hangs` outcome of `initialize_path`.
* `internal::full_pathname` (`realpath`) is outside the library: it is a
  parameter of `full_path` and `path_from`.
* `initialize`, `operator/` and `from` are not Lean identifiers: they are
  `initialize_path`, `operator_div` and `path_from` here.
-/

namespace filesystem

/-- The type `string_t` of the source: a sequence of code units. -/
abbrev Str := List Char

/-! ## `std::basic_string` members used by the source -/

/-- Index of the first `c` in `s`, as `s.find(c)`; `none` is `npos`. -/
def index_of (c : Char) : Str → Option Nat
  | [] => none
  | x :: xs => if x = c then some 0 else (index_of c xs).map (· + 1)

/-- The call `s.find(c, pos)`: first index at or after `pos` holding `c`. -/
def find_char (s : Str) (c : Char) (pos : Nat) : Option Nat :=
  (index_of c (s.drop pos)).map (· + pos)

/-- Whether `pat` is read at the front of `s`. -/
def starts_with : Str → Str → Bool
  | [], _ => true
  | _ :: _, [] => false
  | a :: pat, b :: s => a == b && starts_with pat s

/-- Index of the first occurrence of the string `pat` in `s`. -/
def index_of_sub (pat : Str) : Str → Option Nat
  | [] => if pat.isEmpty then some 0 else none
  | x :: xs =>
    if starts_with pat (x :: xs) then some 0 else (index_of_sub pat xs).map (· + 1)

/-- The call `s.find(pat, pos)` for a string `pat`. -/
def find_str (s pat : Str) (pos : Nat) : Option Nat :=
  if s.length < pos then none else (index_of_sub pat (s.drop pos)).map (· + pos)

/-- The call `s.find_first_not_of(c)`. -/
def find_first_not_of (c : Char) : Str → Option Nat
  | [] => none
  | x :: xs => if x ≠ c then some 0 else (find_first_not_of c xs).map (· + 1)

/-- The call `s.find_last_of(c)`. -/
def find_last_of (c : Char) : Str → Option Nat
  | [] => none
  | x :: xs =>
    match find_last_of c xs with
    | some k => some (k + 1)
    | none => if x = c then some 0 else none

/-- The call `s.substr(pos, n)`. -/
def substr (s : Str) (pos n : Nat) : Str := (s.drop pos).take n

/-- The element access `s[k]`; at `k = s.size()` the source reads the terminator. -/
def char_at (s : Str) (k : Nat) : Char := s.getD k (Char.ofNat 0)

/-! ## POSIX glob -/

mutual
/-- The function `internal::glob_match(i_begin, i_end, p_begin, p_end)`, on the
unread rest `i` of the name and the unread rest `p` of the pattern: the test
on entry, then the loop. -/
def glob_match (i p : Str) : Bool :=
  match i with
  | [] => p.isEmpty
  | c :: i' => glob_loop (c :: i') p
termination_by (i.length + p.length, 1)
/-- The `while` loop of `glob_match` and the `return (i_begin == i_end)` that
follows it.  In the `switch`, `case '\\'` falls through to `default`, and
`default` falls through to `case '?'`. -/
def glob_loop (i p : Str) : Bool :=
  match i, p with
  | c :: i', d :: p' =>
    if d = '*' then
      glob_match i' (d :: p') || glob_match (c :: i') p' || glob_match i' p'
    else if d = '\\' then
      match p' with
      | [] => false
      | e :: p'' => if e ≠ c then false else glob_loop i' p''
    else if d = '?' then glob_loop i' p'
    else if d ≠ c then false else glob_loop i' p'
  | i, _ => i.isEmpty
termination_by (i.length + p.length, 0)
end

/-! ## `class basic_path` -/

/-- The messages with which the source throws `filesystem_error`. -/
inductive filesystem_error where
  /-- "Path cannot be initialized to empty value" -/
  | empty_value
  /-- "Path encountered unexpected neighboring directory separators: '//'" -/
  | neighboring_separators
  /-- "Invalid path specified" -/
  | invalid_path
  /-- "Path element contains '$', but has invalid environment variable format" -/
  | dollar_format
  /-- "Path element contains parentheses, but has invalid environment variable format" -/
  | parentheses_format
  /-- "Assertion failure" -/
  | assertion_failure
  /-- "Specified path is not a directory." -/
  | not_a_directory
  /-- The error text of the operating system (`generate_filesystem_error`). -/
  | os_error
  deriving DecidableEq, Repr

/-- What a call does: return a value, throw, or never return. -/
inductive Outcome (α : Type) where
  | returns (a : α)
  | throws (e : filesystem_error)
  | hangs
  deriving DecidableEq, Repr

/-- Sequencing of calls: the first throw or hang is the outcome. -/
def Outcome.bind {α β : Type} (x : Outcome α) (f : α → Outcome β) : Outcome β :=
  match x with
  | .returns a => f a
  | .throws e => .throws e
  | .hangs => .hangs

/-- The data members of `basic_path` (the cached `path_string` is a function
of the others and is computed by `get_path_string`). -/
structure basic_path where
  path_elems : List Str
  relative : Bool
  drive_specified : Bool
  unc_path : Bool
  deriving DecidableEq, Repr

/-- The split loop of `initialize` ("Now parse the remainding part of the
path string"), on the text from `searchIndex` on: `cur` is the text read since
the last `'/'`.  Every `'/'` closes an element; the text after the last `'/'`
is pushed only when it is not empty. -/
def split_elems (cur : Str) : Str → List Str
  | [] => if cur.isEmpty then [] else [cur]
  | c :: rest => if c = '/' then cur :: split_elems [] rest else split_elems (cur ++ [c]) rest

/-- The body of the loop "Validate environment variable members" for one
element: `none` when the element passes, the error thrown otherwise.  The
second branch tests `find('(')` twice, as the source does. -/
def validate_elem (e : Str) : Option filesystem_error :=
  match index_of '$' e with
  | some dollarSignLocation =>
    if dollarSignLocation ≠ 0 ∨ e.length < 4 ∨ find_char e '$' 1 ≠ none ∨
        index_of '(' e ≠ some 1 ∨ find_char e '(' 2 ≠ none ∨
        index_of ')' e ≠ some (e.length - 1) then
      some .dollar_format
    else none
  | none =>
    if index_of '(' e ≠ none ∨ index_of '(' e ≠ none then some .parentheses_format
    else none

/-- The validation loop over `path_elems`: the first failing element throws. -/
def validate_elems : List Str → Option filesystem_error
  | [] => none
  | e :: es =>
    match validate_elem e with
    | some err => some err
    | none => validate_elems es

/-- The string `doubleElipses(2, '.')`. -/
def doubleElipses : Str := ['.', '.']

/-- The inner `while (it != endIt)` of `remove_double_elipses`, entered with
`prevIt` at the head of the list and `it` one further: `some l` when an
`erase(prevIt, it+1)` took place, with `l` what is left of the list, `none`
when the scan reached the end. -/
def rde_scan : List Str → Option (List Str)
  | prev :: it :: tail =>
    if it = doubleElipses ∧ prev ≠ doubleElipses ∧ char_at prev 0 ≠ '$' then some tail
    else (rde_scan (it :: tail)).map (prev :: ·)
  | _ => none

/-- One iteration of `while (!isDone)` in `remove_double_elipses`; the second
component is the value of `isDone` at the end of the iteration.  When
`startIt` is already `endIt` the body of `if (it != endIt)` is skipped and
`isDone` keeps the value `false` it had on entry. -/
def rde_pass (p : basic_path) : basic_path × Bool :=
  let skip := if p.drive_specified || p.unc_path || !p.relative then 1 else 0
  match p.path_elems.drop skip with
  | [] => (p, false)
  | x :: xs =>
    match rde_scan (x :: xs) with
    | some l => ({ p with path_elems := p.path_elems.take skip ++ l }, false)
    | none => (p, true)

/-- The loop `while (!isDone)` run for at most `n` iterations: `none` when
`isDone` is still `false` after `n` of them. -/
def rde_loop : Nat → basic_path → Option basic_path
  | 0, _ => none
  | n + 1, p =>
    match rde_pass p with
    | (q, true) => some q
    | (q, false) => rde_loop n q

/-- The method `remove_double_elipses`: `none` when the loop never ends
(see `rde_loop_budget`). -/
def remove_double_elipses (p : basic_path) : Option basic_path :=
  rde_loop (p.path_elems.length + 1) p

/-- The part of `initialize` after the root has been classified: split what
follows `searchIndex`, validate, remove ".", remove "..". -/
def initialize_rest (p : basic_path) (path_ : Str) (searchIndex : Nat) : Outcome basic_path :=
  let elems := p.path_elems ++ split_elems [] (path_.drop searchIndex)
  match validate_elems elems with
  | some err => .throws err
  | none =>
    let elems := elems.filter (· ≠ ['.'])
    let elems := if elems.length = 0 then [['.']] else elems
    match remove_double_elipses { p with path_elems := elems } with
    | some q => .returns q
    | none => .hangs

/-- The method `basic_path::initialize(path_)` run on a path constructed with
`relative(true), drive_specified(false), unc_path(false)`: this is the
constructor `basic_path(const string_t&)`, the parser of the library. -/
def initialize_path (path_ : Str) : Outcome basic_path :=
  if path_.isEmpty then .throws .empty_value
  else
    let path_ := path_.map (fun c => if c = '\\' then '/' else c)
    if find_str path_ ['/', '/'] 1 ≠ none then .throws .neighboring_separators
    else if find_str path_ ['.', '.', '.'] 0 = some 0 ∧ find_first_not_of '.' path_ = none then
      .throws .invalid_path
    else if char_at path_ 0 = '/' then
      if path_.length = 1 then .returns ⟨[path_], false, false, false⟩
      else if char_at path_ 1 = '/' then
        match find_char path_ '/' 2 with
        | none => .returns ⟨[path_], false, false, true⟩
        | some nextDelimiter =>
          initialize_rest ⟨[substr path_ 0 nextDelimiter], false, false, true⟩ path_
            (nextDelimiter + 1)
      else initialize_rest ⟨[['/']], false, false, false⟩ path_ 1
    else if 2 ≤ path_.length ∧ char_at path_ 1 = ':' ∧
        (('A' ≤ char_at path_ 0 ∧ char_at path_ 0 ≤ 'Z') ∨
         ('a' ≤ char_at path_ 0 ∧ char_at path_ 0 ≤ 'z')) then
      if 3 ≤ path_.length ∧ char_at path_ 2 = '/' then
        initialize_rest ⟨[substr path_ 0 3], false, true, false⟩ path_ 3
      else initialize_rest ⟨[substr path_ 0 2], true, true, false⟩ path_ 2
    else initialize_rest ⟨[], true, false, false⟩ path_ 0

/-- The loop `for (; element<elementCount; ++element)` of `get_path_string`:
a `'/'` and the element, for each element left. -/
def append_elems : List Str → Str
  | [] => []
  | e :: es => '/' :: e ++ append_elems es

/-- The method `get_path_string` (and so `to_portable_string`).  The source
reads `path_elems[0]` unconditionally; on an empty vector, which no returned
`initialize_path` produces, the model gives the empty string. -/
def get_path_string (p : basic_path) : Str :=
  match p.path_elems with
  | [] => []
  | e0 :: [] => e0
  | e0 :: e1 :: es =>
    if !p.unc_path && !p.relative then e0 ++ e1 ++ append_elems es
    else e0 ++ append_elems (e1 :: es)

/-- The method `operator/(const string_t& other)`. -/
def operator_div (p : basic_path) (other : Str) : Outcome basic_path :=
  initialize_path (get_path_string p ++ ['/'] ++ other)

/-- The function `internal::compare_path_element` of the POSIX configuration. -/
def compare_path_element (e1 e2 : Str) : Bool := e1 == e2

/-- The method `operator==`. -/
def path_equal (p q : basic_path) : Bool :=
  p.path_elems.length == q.path_elems.length &&
    (List.zipWith compare_path_element p.path_elems q.path_elems).all id

/-- The method `full_path` of the POSIX configuration, over the platform call
`internal::full_pathname`. -/
def full_path (full_pathname : Str → Str) (p : basic_path) : Outcome basic_path :=
  initialize_path (full_pathname (get_path_string p))

/-- The loop of `from` that looks for `differentElemIndex`: the first index
in `1 .. maxSimilarElems-1` at which the elements differ, else the initial
value `maxSimilarElems+1`. -/
def differentElemIndex (thisElems otherElems : List Str) : Nat :=
  let maxSimilarElems :=
    if thisElems.length < otherElems.length then thisElems.length else otherElems.length
  match (List.range' 1 (maxSimilarElems - 1)).find?
      (fun elem => !compare_path_element (thisElems.getD elem []) (otherElems.getD elem [])) with
  | some elem => elem
  | none => maxSimilarElems + 1

/-- The method `from(const basic_path& other)`: the path of `this` as seen
from `other`. -/
def path_from (full_pathname : Str → Str) (this other : basic_path) : Outcome basic_path :=
  (full_path full_pathname this).bind fun thisFullPath =>
  (full_path full_pathname other).bind fun otherFullPath =>
  if !compare_path_element (thisFullPath.path_elems.getD 0 [])
      (otherFullPath.path_elems.getD 0 []) then
    .returns thisFullPath
  else
    let d := differentElemIndex thisFullPath.path_elems otherFullPath.path_elems
    let ups := (List.replicate (otherFullPath.path_elems.length - d) ['.', '.', '/']).flatten
    let downs := ((thisFullPath.path_elems.drop d).map (· ++ ['/'])).flatten
    initialize_path (ups ++ downs)

/-- The method `get_variable_id`: `some varId` when it returns `true`, `none`
when it returns `false`. -/
def get_variable_id (elem : Str) : Outcome (Option Str) :=
  if char_at elem 0 = '$' then
    if char_at elem 1 ≠ '(' ∨ char_at elem (elem.length - 1) ≠ ')' then
      .throws .assertion_failure
    else .returns (some (substr elem 2 (elem.length - 3)))
  else .returns none

/-- The lookup `varmap.find(varId)` in a `std::map`. -/
def varmap_find (varmap : List (Str × Str)) (varId : Str) : Option Str :=
  (varmap.find? (fun kv => kv.1 == varId)).map (·.2)

/-- The body shared by the first element and the loop of `apply_variables`:
what `newPathString` is after `elem` has been handled. -/
def apply_elem (varmap : List (Str × Str)) (newPathString elem : Str) : Outcome Str :=
  (get_variable_id elem).bind fun v =>
  match v.bind (varmap_find varmap) with
  | some value =>
    let s := newPathString ++ value
    let lastChar := s.getLastD (Char.ofNat 0)
    .returns (if lastChar ≠ '/' ∧ lastChar ≠ '\\' then s ++ ['/'] else s)
  | none => .returns (newPathString ++ elem ++ ['/'])

/-- The loop `for (elem=1; elem<elemCount; ++elem)` of `apply_variables`. -/
def apply_elems (varmap : List (Str × Str)) (newPathString : Str) : List Str → Outcome Str
  | [] => .returns newPathString
  | e :: es => (apply_elem varmap newPathString e).bind fun s => apply_elems varmap s es

/-- The method `apply_variables`. -/
def apply_variables (p : basic_path) (varmap : List (Str × Str)) : Outcome basic_path :=
  let first : Outcome Str :=
    if !p.relative then .returns (p.path_elems.getD 0 [])
    else apply_elem varmap [] (p.path_elems.getD 0 [])
  first.bind fun s =>
  (apply_elems varmap s (p.path_elems.drop 1)).bind initialize_path

/-! ## The glob matcher with its recursion counted -/

/-- The operator `||` on calls that may not return: the right operand counts
only when the left one returned `false`. -/
def or_call (a b : Option Bool) : Option Bool :=
  match a with
  | none => none
  | some true => some true
  | some false => b

/-- The loop of `glob_match`, with the three recursive calls at a `*` handed
to `call`: the loop itself advances the name cursor in every turn. -/
def glob_loop_with (call : Str → Str → Option Bool) : Str → Str → Option Bool
  | c :: i', d :: p' =>
    if d = '*' then
      or_call (call i' (d :: p')) (or_call (call (c :: i') p') (call i' p'))
    else if d = '\\' then
      match p' with
      | [] => some false
      | e :: p'' => if e ≠ c then some false else glob_loop_with call i' p''
    else if d = '?' then glob_loop_with call i' p'
    else if d ≠ c then some false else glob_loop_with call i' p'
  | i, _ => some i.isEmpty

/-- The function `glob_match` run with at most `fuel` nested calls: `none`
when a call would be nested deeper. -/
def glob_match_fuel : Nat → Str → Str → Option Bool
  | 0, _, _ => none
  | fuel + 1, i, p =>
    match i with
    | [] => some p.isEmpty
    | c :: i' => glob_loop_with (glob_match_fuel fuel) (c :: i') p

/-! ## `filename`, `stem`, `extension` -/

/-- The method `filename`: `*(path_elems.end()-1)`.  On an empty vector,
which no returned `initialize_path` produces, the model gives the empty
string. -/
def filename (p : basic_path) : Str := p.path_elems.getLastD []

/-- The method `stem`: `temp.substr(0, temp.find_last_of('.'))`.  When there
is no dot the count is `npos` and `substr` gives the whole string. -/
def stem (p : basic_path) : Str :=
  let temp := p.path_elems.getLastD []
  match find_last_of '.' temp with
  | some k => substr temp 0 k
  | none => temp

/-- The method `extension`: `temp.substr(temp.find_last_of('.')+1)`.  When
there is no dot the position is `npos + 1`, which is 0 in `size_t`, and
`substr` gives the whole string. -/
def extension (p : basic_path) : Str :=
  let temp := p.path_elems.getLastD []
  match find_last_of '.' temp with
  | some k => temp.drop (k + 1)
  | none => temp.drop 0

/-! ## The collapse of `..` as one pass over a stack -/

/-- One element of the single stack pass that the spec's design note
describes ("push elements, popping on `..` when the top is collapsible").
The stack has its top first.  An element ".." pops the top when the top lies
after the root position (`skip` is 1 for a path with a root, 0 otherwise, and
the top has index `stack.length - 1`), is not ".." and does not begin with
`$`; every other element is pushed. -/
def stack_step (skip : Nat) (stack : List Str) (e : Str) : List Str :=
  match stack with
  | top :: below =>
    if e = doubleElipses ∧ skip < (top :: below).length ∧ top ≠ doubleElipses ∧
        char_at top 0 ≠ '$' then below
    else e :: top :: below
  | [] => [e]

/-- The single left-to-right stack pass of the spec's design note: the
elements left on the stack, bottom first. -/
def stack_pass (skip : Nat) (elems : List Str) : List Str :=
  (elems.foldl (stack_step skip) []).reverse

/-! ## Text built by the path operations -/

/-- The text that the loops of `from` and `apply_variables` build from
elements: each element followed by a separator. -/
def slash_terminated (es : List Str) : Str := (es.map (· ++ ['/'])).flatten

/-! ## Directory listing (POSIX configuration) -/

/-- What the tests `S_ISDIR` and `S_ISREG` tell of an `st_mode`. -/
inductive file_mode where
  | directory
  | regular
  | other
  deriving DecidableEq, Repr

/-- The platform calls behind the directory methods: `realpath` (in
`internal::full_pathname`), `lstat` and `stat` (`none` stands for a failed
call), and the names that `readdir` gives in turn after `opendir` of a
directory. -/
structure os_calls where
  full_pathname : Str → Str
  lstat : Str → Option file_mode
  stat : Str → Option file_mode
  readdir : Str → List Str

/-- The function `internal::is_directory`: a failed `lstat` throws the error
of the operating system. -/
def internal_is_directory (os : os_calls) (path : Str) : Outcome Bool :=
  match os.lstat path with
  | none => .throws .os_error
  | some info => .returns (info == .directory)

/-- The function `internal::scan_directory`: the loop over the entries of
`readdir`, each `continue` leaving `results` as it is.  `results` is not
cleared. -/
def scan_directory (os : os_calls) (directory pattern : Str) (results : List Str)
    (search_directories : Bool) : List Str :=
  let no_pattern := pattern.isEmpty
  (os.readdir directory).foldl (fun results file_name =>
    let full_file_name := directory ++ ['/'] ++ file_name
    if file_name = ['.'] ∨ file_name = ['.', '.'] then results
    else
      match os.stat full_file_name with
      | none => results
      | some st_mode =>
        if search_directories = true ∧ st_mode ≠ .directory then results
        else if search_directories = false ∧ st_mode ≠ .regular then results
        else if (no_pattern || glob_match file_name pattern) = true then results ++ [file_name]
        else results) results

/-- The function `internal::dir_get_subdirs`. -/
def dir_get_subdirs (os : os_calls) (dir pattern : Str) (results : List Str) : List Str :=
  scan_directory os dir pattern results true

/-- The function `internal::dir_get_files`. -/
def dir_get_files (os : os_calls) (dir pattern : Str) (results : List Str) : List Str :=
  scan_directory os dir pattern results false

/-- The method `is_directory`. -/
def is_directory (os : os_calls) (p : basic_path) : Outcome Bool :=
  internal_is_directory os (get_path_string p)

/-- The method `directory_get_files(pattern, std::vector<string_t>&)`. -/
def directory_get_files_strings (os : os_calls) (p : basic_path) (pattern : Str)
    (results : List Str) : Outcome (List Str) :=
  (is_directory os p).bind fun isdir =>
  if isdir = false then .throws .not_a_directory
  else .returns (dir_get_files os (get_path_string p) pattern results)

/-- The method `directory_get_subdirs(pattern, std::vector<string_t>&)`. -/
def directory_get_subdirs_strings (os : os_calls) (p : basic_path) (pattern : Str)
    (results : List Str) : Outcome (List Str) :=
  (is_directory os p).bind fun isdir =>
  if isdir = false then .throws .not_a_directory
  else .returns (dir_get_subdirs os (get_path_string p) pattern results)

/-- The closing loop of the methods that fill a `std::vector<basic_path>`:
`results.push_back(fullpath / *it)` for every name. -/
def push_back_joined (fullpath : basic_path) : List Str → List basic_path →
    Outcome (List basic_path)
  | [], results => .returns results
  | it :: rest, results =>
    (operator_div fullpath it).bind fun joined =>
    push_back_joined fullpath rest (results ++ [joined])

/-- The method `directory_get_files(pattern, std::vector<basic_path>&)`; the
vector is cleared, so that the result does not depend on what it held. -/
def directory_get_files (os : os_calls) (p : basic_path) (pattern : Str) :
    Outcome (List basic_path) :=
  (full_path os.full_pathname p).bind fun fullpath =>
  (directory_get_files_strings os fullpath pattern []).bind fun str_results =>
  push_back_joined fullpath str_results []

/-- The method `directory_get_subdirs(pattern, std::vector<basic_path>&)`;
the overload without pattern passes the empty pattern. -/
def directory_get_subdirs (os : os_calls) (p : basic_path) (pattern : Str) :
    Outcome (List basic_path) :=
  (full_path os.full_pathname p).bind fun fullpath =>
  (directory_get_subdirs_strings os fullpath pattern []).bind fun str_results =>
  push_back_joined fullpath str_results []

/-- The loop of `directory_scan_subdirs_for_files_helper` over the
subdirectories, `call it results` being the recursive call
`it->directory_scan_subdirs_for_files_helper(pattern, results)`; `none` says
that a call did not finish within its nesting depth. -/
def scan_subdirs_loop
    (call : basic_path → List basic_path → Option (Outcome (List basic_path))) :
    List basic_path → List basic_path → Option (Outcome (List basic_path))
  | [], results => some (.returns results)
  | it :: rest, results =>
    match call it results with
    | none => none
    | some (.returns results) => scan_subdirs_loop call rest results
    | some (.throws e) => some (.throws e)
    | some .hangs => some .hangs

/-- The method `directory_scan_subdirs_for_files_helper(pattern, results)`,
with the vector `results` passed in and out.  The first argument bounds the
nesting depth of the recursion: `none` says that the calls nest deeper, and
a traversal that gives `none` at every depth does not terminate. -/
def directory_scan_subdirs_for_files_helper (os : os_calls) :
    Nat → basic_path → Str → List basic_path → Option (Outcome (List basic_path))
  | 0, _, _, _ => none
  | fuel + 1, p, pattern, results =>
    match directory_get_files os p pattern with
    | .throws e => some (.throws e)
    | .hangs => some .hangs
    | .returns dir_results =>
      match directory_get_subdirs os p [] with
      | .throws e => some (.throws e)
      | .hangs => some .hangs
      | .returns subdirs =>
        scan_subdirs_loop
          (fun it results => directory_scan_subdirs_for_files_helper os fuel it pattern results)
          subdirs (results ++ dir_results)

/-- The outcome of a call whose returned vector is `f` of another call's. -/
def Outcome.map {α β : Type} (f : α → β) (x : Outcome α) : Outcome β :=
  match x with
  | .returns a => .returns (f a)
  | .throws e => .throws e
  | .hangs => .hangs

/-- A plain name, as the statements about directory entries, drive paths and
UNC paths use the word: not empty, without `'/'`, backslash, `'$'`, `'('` and
`')'`, and not made of dots only. -/
def plain_name (n : Str) : Prop :=
  '/' ∉ n ∧ '\\' ∉ n ∧ '$' ∉ n ∧ '(' ∉ n ∧ ')' ∉ n ∧ ∃ c ∈ n, c ≠ '.'

/-- Whether a name is plain can be computed. -/
instance plain_name_decidable (n : Str) : Decidable (plain_name n) := by
  unfold plain_name
  infer_instance

/-! ## The split loop, in the terms of the source -/

/-- The scan by characters is the `find` / `substr` loop of `initialize`:
with `cur` read so far and `s` left, when `s` has no `'/'` the rest is the
last element, pushed unless empty, and when the next `'/'` of `s` is at `k`
the element ends there and the loop goes on after it. -/
theorem split_elems_find (cur s : Str) :
    split_elems cur s =
      match index_of '/' s with
      | none => if (cur ++ s).isEmpty then [] else [cur ++ s]
      | some k => (cur ++ s.take k) :: split_elems [] (s.drop (k + 1)) := by
  induction s generalizing cur with
  | nil => simp [split_elems, index_of]
  | cons c rest ih =>
    by_cases hc : c = '/'
    · subst hc
      simp [split_elems, index_of]
    · rw [split_elems, if_neg hc, ih (cur ++ [c])]
      simp only [index_of, if_neg hc]
      cases index_of '/' rest with
      | none => simp
      | some k => simp

/-! ## The loop of `remove_double_elipses`: what `none` means -/

/-- An erase in the inner scan removes exactly two elements. -/
theorem rde_scan_length (l l' : List Str) (h : rde_scan l = some l') :
    l'.length + 2 = l.length := by
  induction l generalizing l' with
  | nil => simp [rde_scan] at h
  | cons prev t ih =>
    cases t with
    | nil => simp [rde_scan] at h
    | cons it tail =>
      simp only [rde_scan] at h
      split at h
      · cases h; simp
      · cases hs : rde_scan (it :: tail) with
        | none => simp [hs] at h
        | some r =>
          simp only [hs, Option.map_some'] at h
          cases h
          have := ih r hs
          simp only [List.length_cons] at this ⊢
          omega

/-- An iteration that leaves `isDone` false either changed nothing or made
the vector two elements shorter. -/
theorem rde_pass_not_done (p q : basic_path) (h : rde_pass p = (q, false)) :
    q = p ∨ q.path_elems.length + 2 = p.path_elems.length := by
  unfold rde_pass at h
  simp only at h
  split at h
  · left; cases h; rfl
  · next x xs hd =>
    split at h
    · next l hs =>
      right
      cases h
      have hl := rde_scan_length _ _ hs
      have hlen := congrArg List.length hd
      simp only [List.length_drop, List.length_cons] at hlen
      simp only [List.length_append, List.length_take]
      simp only [List.length_cons] at hl
      omega
    · cases h

/-- More iterations do not change an answer already reached. -/
theorem rde_loop_stable (n m : Nat) (p q : basic_path) (hnm : n ≤ m)
    (h : rde_loop n p = some q) : rde_loop m p = some q := by
  induction n generalizing m p with
  | zero => simp [rde_loop] at h
  | succ n ih =>
    cases m with
    | zero => omega
    | succ m =>
      simp only [rde_loop] at h ⊢
      split
      · next r hr => simpa [hr] using h
      · next r hr =>
        rw [hr] at h
        exact ih m r (by omega) h

/-- If some number of iterations ends the loop, the budget that
`remove_double_elipses` gives it does. -/
theorem rde_loop_budget (n : Nat) (p q : basic_path) (h : rde_loop n p = some q) :
    remove_double_elipses p = some q := by
  unfold remove_double_elipses
  induction n generalizing p with
  | zero => simp [rde_loop] at h
  | succ n ih =>
    simp only [rde_loop] at h ⊢
    split
    · next r hr => simpa [hr] using h
    · next r hr =>
      rw [hr] at h
      have hrec := ih r h
      rcases rde_pass_not_done p r hr with heq | hlen
      · subst heq
        simpa [rde_loop, hr] using hrec
      · exact rde_loop_stable (r.path_elems.length + 1) _ r q (by omega) hrec

/-- The answer `none` of `remove_double_elipses` is non-termination of the
source loop: no number of iterations reaches `isDone`. -/
theorem remove_double_elipses_none_iff (p : basic_path) :
    remove_double_elipses p = none ↔ ∀ n, rde_loop n p = none := by
  constructor
  · intro h n
    cases hn : rde_loop n p with
    | none => rfl
    | some q => rw [rde_loop_budget n p q hn] at h; cases h
  · intro h
    exact h _

/-! ## The glob matcher on literal patterns and on the empty name -/

/-- The loop with the name exhausted: the closing `return` answers `true`. -/
theorem glob_loop_nil (p : Str) : glob_loop [] p = true := by
  rw [glob_loop.eq_def]
  cases p <;> rfl

/-- The loop with the pattern exhausted and the name not: `false`. -/
theorem glob_loop_cons_nil (c : Char) (i' : Str) : glob_loop (c :: i') [] = false := by
  rw [glob_loop.eq_def]
  rfl

/-- One turn of the loop, on a name and a pattern that are both not
exhausted: the `switch` on the pattern character. -/
theorem glob_loop_cons_cons (c : Char) (i' : Str) (d : Char) (p' : Str) :
    glob_loop (c :: i') (d :: p') =
      if d = '*' then
        glob_match i' (d :: p') || glob_match (c :: i') p' || glob_match i' p'
      else if d = '\\' then
        match p' with
        | [] => false
        | e :: p'' => if e ≠ c then false else glob_loop i' p''
      else if d = '?' then glob_loop i' p'
      else if d ≠ c then false else glob_loop i' p' := by
  conv_lhs => rw [glob_loop.eq_def]
  rfl

/-- The loop on a pattern without `*`, `?` and backslash: it answers `true`
exactly when the name is an initial segment of the pattern, because the
closing `return` looks at the name only. -/
theorem glob_loop_literal (p : Str) (hp : ∀ c ∈ p, c ≠ '*' ∧ c ≠ '?' ∧ c ≠ '\\')
    (i : Str) : glob_loop i p = true ↔ i <+: p := by
  induction i generalizing p with
  | nil => simp [glob_loop_nil]
  | cons c i' ih =>
    cases p with
    | nil => simp [glob_loop_cons_nil]
    | cons d p' =>
      have hd := hp d (List.mem_cons_self d p')
      have hp' : ∀ c ∈ p', c ≠ '*' ∧ c ≠ '?' ∧ c ≠ '\\' :=
        fun c hc => hp c (List.mem_cons_of_mem d hc)
      simp only [glob_loop_cons_cons, hd.1, hd.2.1, hd.2.2, if_false, List.cons_prefix_cons]
      by_cases hdc : d = c
      · subst hdc
        simpa using ih p' hp'
      · have hcd : ¬ c = d := fun h => hdc h.symm
        simp [hdc, hcd]

/-- What `glob_match` computes on a pattern without `*`, `?` and backslash:
the empty name matches the empty pattern only, and a non-empty name matches
every pattern it is an initial segment of. -/
theorem glob_match_literal (i p : Str) (hp : ∀ c ∈ p, c ≠ '*' ∧ c ≠ '?' ∧ c ≠ '\\') :
    glob_match i p = true ↔ (i = [] ∧ p = []) ∨ (i ≠ [] ∧ i <+: p) := by
  cases i with
  | nil => cases p <;> simp [glob_match]
  | cons c i' =>
    rw [glob_match, glob_loop_literal p hp]
    simp

/-- The test on entry decides the empty name: it matches the empty pattern
and no other. -/
theorem glob_match_empty_name (p : Str) : glob_match [] p = true ↔ p = [] := by
  cases p <;> simp [glob_match]

/-- Every non-empty name matches the pattern "*". -/
theorem glob_match_star_nonempty (i : Str) (hi : i ≠ []) : glob_match i ['*'] = true := by
  induction i with
  | nil => exact absurd rfl hi
  | cons c i' ih =>
    cases i' with
    | nil => simp [glob_match, glob_loop]
    | cons c' t =>
      have h := ih (by simp)
      simp [glob_match, glob_loop_cons_cons, h]

/-- C1. The code at the name "a" and the literal pattern "ab": the loop
consumes the name, leaves the pattern at "b", and the closing
`return (i_begin == i_end)` answers `true` although the name differs from
the pattern. -/
theorem glob_match_shorter_name_accepted :
    glob_match "a".toList "ab".toList = true ∧ "a".toList ≠ "ab".toList := by
  constructor
  · simp [glob_match, glob_loop]
  · decide

/-- C9. The code at the empty name and the patterns "*" and "**", which can
consume zero characters: the test on entry answers `p_begin == p_end`, which
is `false`. -/
theorem glob_match_empty_name_star_patterns :
    glob_match [] "*".toList = false ∧ glob_match [] "**".toList = false := by
  constructor <;> simp [glob_match]

/-- C10. The code at the empty name with the pattern "*": the answer is
`false`, while a name of one character is accepted. -/
theorem glob_match_star_rejects_empty_name :
    glob_match "".toList "*".toList = false ∧ glob_match "a".toList "*".toList = true := by
  constructor <;> simp [glob_match, glob_loop]

/-! ## The path type at the inputs where the code departs from its description -/

/-- C2. The code at target `/a/b` and origin `/a`, both absolute and
normalized and left unchanged by `full_path` (the platform call taken as the
identity): `differentElemIndex` keeps its initial value 3, past the end of
both vectors, the string built is empty, and `from` throws "Path cannot be
initialized to empty value".  The same happens with target and origin both
`/a`. -/
theorem path_from_parent_throws :
    full_path id ⟨["/".toList, "a".toList, "b".toList], false, false, false⟩
        = .returns ⟨["/".toList, "a".toList, "b".toList], false, false, false⟩ ∧
    full_path id ⟨["/".toList, "a".toList], false, false, false⟩
        = .returns ⟨["/".toList, "a".toList], false, false, false⟩ ∧
    differentElemIndex ["/".toList, "a".toList, "b".toList] ["/".toList, "a".toList] = 3 ∧
    path_from id ⟨["/".toList, "a".toList, "b".toList], false, false, false⟩
        ⟨["/".toList, "a".toList], false, false, false⟩
      = .throws .empty_value ∧
    path_from id ⟨["/".toList, "a".toList], false, false, false⟩
        ⟨["/".toList, "a".toList], false, false, false⟩
      = .throws .empty_value := by
  decide

/-- C3. The code at the raw string "/.": after "." is removed the vector is
`["/"]` with `relative` false, `startIt` is `endIt` in every iteration of
`remove_double_elipses`, `isDone` is never set, and no number of iterations
ends the loop; the construction does not return. -/
theorem initialize_path_root_dot_hangs :
    initialize_path "/.".toList = .hangs ∧
    ∀ n, rde_loop n ⟨["/".toList], false, false, false⟩ = none := by
  constructor
  · decide
  · intro n
    induction n with
    | zero => rfl
    | succ n ih => simpa [rde_loop, rde_pass] using ih

/-- C4. The code at the raw string ".../": it parses to the single element
"...", whose canonical string "..." is rejected by the parser with "Invalid
path specified". -/
theorem canonical_string_of_dots_rejected :
    initialize_path ".../".toList = .returns ⟨["...".toList], true, false, false⟩ ∧
    get_path_string ⟨["...".toList], true, false, false⟩ = "...".toList ∧
    initialize_path "...".toList = .throws .invalid_path := by
  decide

/-- C5. The code at the root path "/" and the entry name "a": the string
handed to the parser is "//a", so the result is the UNC path with the single
element "//a", not the absolute path with elements "/" and "a". -/
theorem operator_div_root_gives_unc :
    initialize_path "/".toList = .returns ⟨["/".toList], false, false, false⟩ ∧
    operator_div ⟨["/".toList], false, false, false⟩ "a".toList
      = .returns ⟨["//a".toList], false, false, true⟩ := by
  decide

/-- C6. The code at the drive-relative path "C:a": its canonical string is
"C:/a", which parses to the drive-rooted path with root element "C:/" and
`relative` false. -/
theorem drive_relative_reparsed_as_rooted :
    initialize_path "C:a".toList = .returns ⟨["C:".toList, "a".toList], true, true, false⟩ ∧
    get_path_string ⟨["C:".toList, "a".toList], true, true, false⟩ = "C:/a".toList ∧
    initialize_path "C:/a".toList
      = .returns ⟨["C:/".toList, "a".toList], false, true, false⟩ := by
  decide

/-- C7. The code at the UNC path "//h/a/b" with the empty mapping: no
separator is put after the root element, the string parsed is "//ha/b/", and
the result has elements "//ha", "b", while the canonical string "//h/a/b"
parses back to "//h", "a", "b".  At "//h/a" the string is "//ha/" and the
construction does not return. -/
theorem apply_variables_unc_merges_root :
    initialize_path "//h/a/b".toList
      = .returns ⟨["//h".toList, "a".toList, "b".toList], false, false, true⟩ ∧
    apply_variables ⟨["//h".toList, "a".toList, "b".toList], false, false, true⟩ []
      = .returns ⟨["//ha".toList, "b".toList], false, false, true⟩ ∧
    initialize_path (get_path_string ⟨["//h".toList, "a".toList, "b".toList], false, false, true⟩)
      = .returns ⟨["//h".toList, "a".toList, "b".toList], false, false, true⟩ ∧
    apply_variables ⟨["//h".toList, "a".toList], false, false, true⟩ [] = .hangs := by
  decide

/-- C8. The code at the raw string "//$": the root-only UNC branch returns
before the validation loop, so the path is constructed with the element
"//$", which holds a dollar sign at index 2; with one more element, "//$/b",
the validation loop is reached and throws. -/
theorem unc_root_only_skips_validation :
    initialize_path "//$".toList = .returns ⟨["//$".toList], false, false, true⟩ ∧
    index_of '$' "//$".toList = some 2 ∧
    initialize_path "//$/b".toList = .throws .dollar_format := by
  decide

/-! ## The glob matcher: a name equal to the pattern, `?`, and a closing backslash -/

/-- C20. A string without `*`, `?` and backslash, the empty string included,
matches itself: `glob_match x x` is `true`. -/
theorem glob_match_self (x : Str) (hx : ∀ c ∈ x, c ≠ '*' ∧ c ≠ '?' ∧ c ≠ '\\') :
    glob_match x x = true := by
  rw [glob_match_literal x x hx]
  cases x with
  | nil => exact Or.inl ⟨rfl, rfl⟩
  | cons c t => exact Or.inr ⟨by simp, List.prefix_refl _⟩

/-- C20 at the string "abc". -/
theorem glob_match_self_abc :
    (∀ c ∈ "abc".toList, c ≠ '*' ∧ c ≠ '?' ∧ c ≠ '\\') ∧
      glob_match "abc".toList "abc".toList = true :=
  ⟨by decide, glob_match_self "abc".toList (by decide)⟩

/-- After a `?` the loop goes on with the two remainders, without the test
on entry: when the name is exhausted there, the answer is `true` whatever is
left of the pattern. -/
theorem glob_match_question (c : Char) (n p : Str) :
    glob_match (c :: n) ('?' :: p) = glob_loop n p := by
  rw [glob_match, glob_loop_cons_cons]
  simp

/-- On a remainder of the name that is not empty, `?` gives the answer for
the two remainders. -/
theorem glob_match_question_nonempty (c : Char) (n p : Str) (hn : n ≠ []) :
    glob_match (c :: n) ('?' :: p) = glob_match n p := by
  rw [glob_match_question]
  cases n with
  | nil => exact absurd rfl hn
  | cons d t => rw [glob_match]

/-- C18. The code at the name "x" and the pattern "?a": the `?` consumes
"x", the name is exhausted, and the closing `return (i_begin == i_end)`
answers `true`, while `glob_match` on the remainders "" and "a" is `false`. -/
theorem glob_match_question_last_char :
    glob_match "x".toList "?a".toList = true ∧ glob_match "".toList "a".toList = false := by
  constructor <;> simp [glob_match, glob_loop]

/-- C19. The code at the name "a" and the pattern "a" followed by a lone
backslash: the loop consumes "a" and ends with the name exhausted, before the
backslash is read, and the answer is `true`.  With the name "ab" the backslash
is read and the answer is `false`. -/
theorem glob_match_closing_backslash_accepted :
    glob_match "a".toList ['a', '\\'] = true ∧ glob_match "ab".toList ['a', '\\'] = false := by
  constructor <;> simp [glob_match, glob_loop]

/-! ## Drive roots and `..` at the root -/

/-- C15. The code at the letter "C" and the empty sequence of names: for
"C:/" and for "C:" the vector holds the root element only, `startIt` is
`endIt` in `remove_double_elipses`, and the construction does not return.
With one name the two paths are constructed as described. -/
theorem initialize_path_drive_root_hangs :
    initialize_path "C:/".toList = .hangs ∧ initialize_path "C:".toList = .hangs ∧
    initialize_path "C:/a".toList = .returns ⟨["C:/".toList, "a".toList], false, true, false⟩ ∧
    initialize_path "C:a".toList = .returns ⟨["C:".toList, "a".toList], true, true, false⟩ := by
  decide

/-- C17. The code at the path `/a` joined with "..": the string "/a/.." is
split into "/", "a", "..", the pair is erased, the root is left alone and the
construction does not return.  At the root path `/` the string is "//..",
and the result is the UNC path with the single element "//..". -/
theorem operator_div_dotdot_at_root :
    initialize_path "/a".toList = .returns ⟨["/".toList, "a".toList], false, false, false⟩ ∧
    operator_div ⟨["/".toList, "a".toList], false, false, false⟩ "..".toList = .hangs ∧
    initialize_path "/".toList = .returns ⟨["/".toList], false, false, false⟩ ∧
    operator_div ⟨["/".toList], false, false, false⟩ "..".toList
      = .returns ⟨["//..".toList], false, false, true⟩ := by
  decide


/-! ## What the construction keeps of the root classification -/

/-- An erase in the inner scan leaves a sublist. -/
theorem rde_scan_sublist (l l' : List Str) (h : rde_scan l = some l') : l'.Sublist l := by
  induction l generalizing l' with
  | nil => simp [rde_scan] at h
  | cons prev t ih =>
    cases t with
    | nil => simp [rde_scan] at h
    | cons it tail =>
      simp only [rde_scan] at h
      split at h
      · cases h
        exact (List.sublist_cons_self _ _).trans (List.sublist_cons_self _ _)
      · cases hs : rde_scan (it :: tail) with
        | none => simp [hs] at h
        | some r =>
          simp only [hs, Option.map_some'] at h
          cases h
          exact (ih r hs).cons₂ prev

/-- What one iteration of the loop keeps: the three flags, a sublist of the
elements, the first element when the scan starts after it; and an iteration
that sets `isDone` leaves a vector that is not empty. -/
theorem rde_pass_spec (p q : basic_path) (b : Bool) (h : rde_pass p = (q, b)) :
    q.relative = p.relative ∧ q.drive_specified = p.drive_specified ∧
    q.unc_path = p.unc_path ∧ q.path_elems.Sublist p.path_elems ∧
    (b = true → q.path_elems ≠ []) ∧
    ((p.drive_specified || p.unc_path || !p.relative) = true →
      q.path_elems.head? = p.path_elems.head?) := by
  unfold rde_pass at h
  simp only at h
  split at h
  · cases h
    simp
  · next x xs hd =>
    split at h
    · next l hs =>
      cases h
      refine ⟨rfl, rfl, rfl, ?_, by simp, ?_⟩
      · have h1 := (List.Sublist.refl (List.take
            (if (p.drive_specified || p.unc_path || !p.relative) = true then 1 else 0)
            p.path_elems)).append (rde_scan_sublist _ _ hs)
        rw [← hd, List.take_append_drop] at h1
        exact h1
      · intro hr
        rw [if_pos hr] at hd
        simp only [if_pos hr]
        cases hp : p.path_elems with
        | nil => simp [hp] at hd
        | cons a t => simp
    · cases h
      refine ⟨rfl, rfl, rfl, List.Sublist.refl _, ?_, fun _ => rfl⟩
      intro _ hn
      simp [hn] at hd


/-- What `remove_double_elipses` keeps when it ends: the three flags, a
sublist of the elements that is not empty, and the first element when the
path has a root. -/
theorem rde_loop_spec (n : Nat) (p q : basic_path) (h : rde_loop n p = some q) :
    q.relative = p.relative ∧ q.drive_specified = p.drive_specified ∧
    q.unc_path = p.unc_path ∧ q.path_elems.Sublist p.path_elems ∧
    q.path_elems ≠ [] ∧
    ((p.drive_specified || p.unc_path || !p.relative) = true →
      q.path_elems.head? = p.path_elems.head?) := by
  induction n generalizing p with
  | zero => simp [rde_loop] at h
  | succ n ih =>
    simp only [rde_loop] at h
    split at h
    · next r hr =>
      cases h
      obtain ⟨h1, h2, h3, h4, h5, h6⟩ := rde_pass_spec p _ true hr
      exact ⟨h1, h2, h3, h4, h5 rfl, h6⟩
    · next r hr =>
      obtain ⟨h1, h2, h3, h4, _, h6⟩ := rde_pass_spec p r false hr
      obtain ⟨g1, g2, g3, g4, g5, g6⟩ := ih r h
      refine ⟨g1.trans h1, g2.trans h2, g3.trans h3, g4.trans h4, g5, ?_⟩
      intro hr'
      rw [g6 (by rw [h1, h2, h3]; exact hr'), h6 hr']

/-- When the part of `initialize` after the root classification returns, the
result is what the loop of `remove_double_elipses` made of the root element,
the split elements without ".", or of the single "." when nothing is left. -/
theorem initialize_rest_returns (p0 q : basic_path) (path_ : Str) (k : Nat)
    (h : initialize_rest p0 path_ k = .returns q) :
    ∃ n, rde_loop n { p0 with path_elems :=
      if ((p0.path_elems ++ split_elems [] (path_.drop k)).filter (· ≠ ['.'])).length = 0
      then [['.']]
      else (p0.path_elems ++ split_elems [] (path_.drop k)).filter (· ≠ ['.']) } = some q := by
  unfold initialize_rest at h
  simp only at h
  split at h
  · cases h
  · split at h
    · next r hr =>
      cases h
      exact ⟨_, hr⟩
    · cases h

/-- The ways in which `initialize` returns: through one of its two early
exits, with the whole string as the single element of a path that is not
relative and has no drive, or through `remove_double_elipses`, started on a
classification `p0` of the root whose flags are consistent, whose root
element is not ".", is there when a flag says so, and has at most two
characters when the path is drive-relative. -/
theorem initialize_path_returns_cases (s : Str) (p : basic_path)
    (h : initialize_path s = .returns p) :
    (p.path_elems = [s.map fun c => if c = '\\' then '/' else c] ∧
      (∃ t, (s.map fun c => if c = '\\' then '/' else c) = '/' :: t) ∧
      p.relative = false ∧ p.drive_specified = false) ∨
    ∃ (p0 : basic_path) (path_ : Str) (k n : Nat),
      (p0.unc_path = true → p0.relative = false) ∧
      (p0.unc_path = true → p0.drive_specified = false) ∧
      ['.'] ∉ p0.path_elems ∧
      (p0.path_elems = [] → (p0.drive_specified || p0.unc_path || !p0.relative) = false) ∧
      (p0.drive_specified = true → p0.relative = true →
        ∀ r ∈ p0.path_elems, r.length ≤ 2) ∧
      rde_loop n { p0 with path_elems :=
        if ((p0.path_elems ++ split_elems [] (path_.drop k)).filter (· ≠ ['.'])).length = 0
        then [['.']]
        else (p0.path_elems ++ split_elems [] (path_.drop k)).filter (· ≠ ['.']) } = some p := by
  unfold initialize_path at h
  split at h
  · cases h
  · simp only at h
    split at h
    · cases h
    · split at h
      · cases h
      · split at h
        · next h0 =>
          have hsl : ∃ t, (s.map fun c => if c = '\\' then '/' else c) = '/' :: t := by
            cases hm : (s.map fun c => if c = '\\' then '/' else c) with
            | nil => simp [hm, char_at] at h0
            | cons a t =>
              simp [hm, char_at] at h0
              exact ⟨t, by rw [h0]⟩
          split at h
          · cases h
            exact Or.inl ⟨rfl, hsl, rfl, rfl⟩
          · split at h
            · cases hnd : find_char (s.map fun c => if c = '\\' then '/' else c) '/' 2 with
              | none =>
                simp only [hnd] at h
                cases h
                exact Or.inl ⟨rfl, hsl, rfl, rfl⟩
              | some nd =>
                simp only [hnd] at h
                right
                obtain ⟨n, hn⟩ := initialize_rest_returns _ _ _ _ h
                refine ⟨_, _, _, n, ?_, ?_, ?_, ?_, ?_, hn⟩
                · simp
                · simp
                · obtain ⟨t, ht⟩ := hsl
                  rw [ht]
                  cases nd <;> simp [substr]
                · simp
                · simp
            · right
              obtain ⟨n, hn⟩ := initialize_rest_returns _ _ _ _ h
              refine ⟨_, _, _, n, ?_, ?_, ?_, ?_, ?_, hn⟩ <;> simp
        · split at h
          · next hd =>
            have hne : ∀ m, 2 ≤ m →
                substr (s.map fun c => if c = '\\' then '/' else c) 0 m ≠ ['.'] := by
              intro m hm heq
              have hl := congrArg List.length heq
              simp only [substr, List.drop_zero, List.length_take, List.length_map,
                List.length_singleton] at hl
              have := hd.1
              simp only [List.length_map] at this
              omega
            split at h
            · right
              obtain ⟨n, hn⟩ := initialize_rest_returns _ _ _ _ h
              refine ⟨_, _, _, n, ?_, ?_, ?_, ?_, ?_, hn⟩
              · simp
              · simp
              · simp only [List.mem_singleton]
                exact fun h => hne 3 (by omega) h.symm
              · simp
              · simp
            · right
              obtain ⟨n, hn⟩ := initialize_rest_returns _ _ _ _ h
              refine ⟨_, _, _, n, ?_, ?_, ?_, ?_, ?_, hn⟩
              · simp
              · simp
              · simp only [List.mem_singleton]
                exact fun h => hne 2 (by omega) h.symm
              · simp
              · simp [substr]
          · right
            obtain ⟨n, hn⟩ := initialize_rest_returns _ _ _ _ h
            refine ⟨_, _, _, n, ?_, ?_, ?_, ?_, ?_, hn⟩ <;> simp


/-! ## Invariants of a constructed path -/

/-- C11. When the construction from a raw string returns, the element vector
is not empty, so `path_elems[0]` and the last element exist. -/
theorem initialize_path_elems_nonempty (s : Str) (p : basic_path)
    (h : initialize_path s = .returns p) : p.path_elems ≠ [] := by
  rcases initialize_path_returns_cases s p h with ⟨he, _⟩ | ⟨p0, path_, k, n, _, _, _, _, _, hn⟩
  · simp [he]
  · exact (rde_loop_spec n _ p hn).2.2.2.2.1

/-- C11 at the raw string "a/./b/../c". -/
theorem initialize_path_elems_nonempty_witness :
    initialize_path "a/./b/../c".toList
        = .returns ⟨["a".toList, "c".toList], true, false, false⟩ ∧
      (⟨["a".toList, "c".toList], true, false, false⟩ : basic_path).path_elems ≠ [] :=
  ⟨by decide, initialize_path_elems_nonempty "a/./b/../c".toList _ (by decide)⟩

/-- C12. When the construction from a raw string returns, either the element
vector is exactly the single element "." or no element is ".". -/
theorem initialize_path_no_dot (s : Str) (p : basic_path)
    (h : initialize_path s = .returns p) :
    p.path_elems = [['.']] ∨ ['.'] ∉ p.path_elems := by
  rcases initialize_path_returns_cases s p h with
    ⟨he, ⟨t, ht⟩, _⟩ | ⟨p0, path_, k, n, _, _, _, _, _, hn⟩
  · right
    rw [he, ht]
    simp
  · obtain ⟨_, _, _, hsub, hne, _⟩ := rde_loop_spec n _ p hn
    simp only at hsub
    split at hsub
    · left
      rcases List.sublist_singleton.mp hsub with h0 | h1
      · exact absurd h0 hne
      · exact h1
    · right
      intro hmem
      have := hsub.subset hmem
      simp at this

/-- C13. When the construction from a raw string returns: a UNC path is not
relative, a path is not both UNC and drive-specified, and a drive-specified
path whose first element is a character followed by ":/" is not relative. -/
theorem initialize_path_flags (s : Str) (p : basic_path)
    (h : initialize_path s = .returns p) :
    (p.unc_path = true → p.relative = false) ∧
    ¬ (p.unc_path = true ∧ p.drive_specified = true) ∧
    (∀ c : Char, p.drive_specified = true → p.path_elems.head? = some [c, ':', '/'] →
      p.relative = false) := by
  rcases initialize_path_returns_cases s p h with
    ⟨_, _, hr, hd⟩ | ⟨p0, path_, k, n, h1, h2, h3, h4, h5, hn⟩
  · simp [hr, hd]
  · obtain ⟨g1, g2, g3, _, _, g6⟩ := rde_loop_spec n _ p hn
    simp only at g1 g2 g3 g6
    refine ⟨?_, ?_, ?_⟩
    · rw [g1, g3]; exact h1
    · rw [g2, g3]
      intro ⟨hu, hd⟩
      rw [h2 hu] at hd
      cases hd
    · intro c hd hhead
      rw [g2] at hd
      rw [g1]
      by_contra hrel
      have hrel' : p0.relative = true := by simpa using hrel
      have hrooted : (p0.drive_specified || p0.unc_path || !p0.relative) = true := by simp [hd]
      rw [g6 hrooted] at hhead
      cases hp0 : p0.path_elems with
      | nil => simp [h4 hp0] at hrooted
      | cons r rs =>
        have hr : r ≠ ['.'] := by
          intro hr
          apply h3
          rw [hp0, hr]
          exact List.mem_cons_self _ _
        have hlen := h5 hd hrel' r (by rw [hp0]; exact List.mem_cons_self _ _)
        simp only [hp0, List.cons_append, List.filter_cons, hr, ne_eq, not_false_eq_true,
          decide_True, if_true, List.length_cons] at hhead
        simp at hhead
        rw [hhead] at hlen
        simp at hlen


/-- C12 at the raw string "./.", which is the single element ".". -/
theorem initialize_path_no_dot_witness :
    initialize_path "./.".toList = .returns ⟨[".".toList], true, false, false⟩ ∧
      ((⟨[".".toList], true, false, false⟩ : basic_path).path_elems = [['.']] ∨
        ['.'] ∉ (⟨[".".toList], true, false, false⟩ : basic_path).path_elems) :=
  ⟨by decide, initialize_path_no_dot "./.".toList _ (by decide)⟩

/-- C13 at the raw string "C:/a". -/
theorem initialize_path_flags_witness :
    initialize_path "C:/a".toList
        = .returns ⟨["C:/".toList, "a".toList], false, true, false⟩ ∧
      (((⟨["C:/".toList, "a".toList], false, true, false⟩ : basic_path).unc_path = true →
        (⟨["C:/".toList, "a".toList], false, true, false⟩ : basic_path).relative = false) ∧
      ¬ ((⟨["C:/".toList, "a".toList], false, true, false⟩ : basic_path).unc_path = true ∧
        (⟨["C:/".toList, "a".toList], false, true, false⟩ : basic_path).drive_specified = true) ∧
      (∀ c : Char,
        (⟨["C:/".toList, "a".toList], false, true, false⟩ : basic_path).drive_specified = true →
        (⟨["C:/".toList, "a".toList], false, true, false⟩ : basic_path).path_elems.head?
          = some [c, ':', '/'] →
        (⟨["C:/".toList, "a".toList], false, true, false⟩ : basic_path).relative = false)) :=
  ⟨by decide, initialize_path_flags "C:/a".toList _ (by decide)⟩


/-! ## Doubled separators -/

/-- The search for "//" finds it wherever it stands. -/
theorem index_of_sub_slashes (a b : Str) :
    index_of_sub ['/', '/'] (a ++ '/' :: '/' :: b) ≠ none := by
  induction a with
  | nil => simp [index_of_sub, starts_with]
  | cons c a' ih =>
    simp only [List.cons_append, index_of_sub]
    split
    · simp
    · cases hi : index_of_sub ['/', '/'] (a' ++ '/' :: '/' :: b) with
      | none => exact absurd hi ih
      | some k => simp

/-- C14. A raw string that, once every backslash is replaced by `'/'`, reads
"//" at an index of at least 1 (some text `a` that is not empty comes before
it) is rejected with "Path encountered unexpected neighboring directory
separators". -/
theorem initialize_path_doubled_separator (s a b : Str) (ha : a ≠ [])
    (h : s.map (fun c => if c = '\\' then '/' else c) = a ++ '/' :: '/' :: b) :
    initialize_path s = .throws .neighboring_separators := by
  have hs : s.isEmpty = false := by
    cases s with
    | nil => simp at h
    | cons c t => rfl
  have hfind : find_str (a ++ '/' :: '/' :: b) ['/', '/'] 1 ≠ none := by
    cases a with
    | nil => exact absurd rfl ha
    | cons c a' =>
      have := index_of_sub_slashes a' b
      cases hi : index_of_sub ['/', '/'] (a' ++ '/' :: '/' :: b) with
      | none => exact absurd hi this
      | some k => simp [find_str, hi]
  unfold initialize_path
  simp only [hs, h]
  rw [if_pos hfind]
  simp

/-- C14 at the raw strings "/a//b" and "a", backslash, "/b". -/
theorem initialize_path_doubled_separator_witness :
    initialize_path "/a//b".toList = .throws .neighboring_separators ∧
      initialize_path ['a', '\\', '/', 'b'] = .throws .neighboring_separators :=
  ⟨initialize_path_doubled_separator "/a//b".toList "/a".toList "b".toList (by decide)
      (by decide),
    initialize_path_doubled_separator ['a', '\\', '/', 'b'] "a".toList "b".toList (by decide)
      (by decide)⟩


/-! ## Paths made of plain names -/

/-- A plain name is not empty. -/
theorem plain_name_ne_nil (n : Str) (h : plain_name n) : n ≠ [] := by
  obtain ⟨_, _, _, _, _, c, hc, _⟩ := h
  intro hn
  rw [hn] at hc
  cases hc

/-- A plain name is not ".". -/
theorem plain_name_ne_dot (n : Str) (h : plain_name n) : n ≠ ['.'] := by
  obtain ⟨_, _, _, _, _, c, hc, hne⟩ := h
  intro hn
  rw [hn] at hc
  simp at hc
  exact hne hc

/-- A plain name is not "..". -/
theorem plain_name_ne_dotdot (n : Str) (h : plain_name n) : n ≠ doubleElipses := by
  obtain ⟨_, _, _, _, _, c, hc, hne⟩ := h
  intro hn
  rw [hn] at hc
  simp [doubleElipses] at hc
  exact hne hc

/-- A character of the text that `append_elems` builds is a separator or a
character of one of the elements. -/
theorem mem_append_elems (c : Char) (ns : List Str) (h : c ∈ append_elems ns) :
    c = '/' ∨ ∃ n ∈ ns, c ∈ n := by
  induction ns with
  | nil => simp [append_elems] at h
  | cons n ns' ih =>
    simp only [append_elems, List.mem_cons, List.mem_append] at h
    rcases h with (h | h) | h
    · exact Or.inl h
    · exact Or.inr ⟨n, List.mem_cons_self _ _, h⟩
    · rcases ih h with h | ⟨m, hm, hc⟩
      · exact Or.inl h
      · exact Or.inr ⟨m, List.mem_cons_of_mem _ hm, hc⟩

/-- Replacing backslashes changes nothing in a text without backslash. -/
theorem map_backslash_id (s : Str) (h : '\\' ∉ s) :
    s.map (fun c => if c = '\\' then '/' else c) = s := by
  induction s with
  | nil => rfl
  | cons c t ih =>
    simp only [List.mem_cons, not_or] at h
    have hc : ¬ c = '\\' := fun e => h.1 e.symm
    simp [hc, ih h.2]

/-- The search for a character that does not occur gives `npos`. -/
theorem index_of_not_mem (c : Char) (s : Str) (h : c ∉ s) : index_of c s = none := by
  induction s with
  | nil => rfl
  | cons x t ih =>
    simp only [List.mem_cons, not_or] at h
    have hx : ¬ x = c := fun e => h.1 e.symm
    simp [index_of, hx, ih h.2]

/-- The search for a character finds its first occurrence. -/
theorem index_of_append_cons (c : Char) (s u : Str) (h : c ∉ s) :
    index_of c (s ++ c :: u) = some s.length := by
  induction s with
  | nil => simp [index_of]
  | cons x t ih =>
    simp only [List.mem_cons, not_or] at h
    have hx : ¬ x = c := fun e => h.1 e.symm
    simp [index_of, hx, ih h.2]

/-- The search for "//" steps over a character that is not a separator. -/
theorem index_of_sub_slashes_cons (x : Char) (u : Str) (hx : x ≠ '/') :
    index_of_sub ['/', '/'] (x :: u) = (index_of_sub ['/', '/'] u).map (· + 1) := by
  have hb : ('/' == x) = false := by
    rw [beq_eq_false_iff_ne]
    exact fun e => hx e.symm
  rw [index_of_sub]
  simp [starts_with, hb]

/-- The search for "//" steps over a separator that is followed by another
character. -/
theorem index_of_sub_slashes_cons_cons (x : Char) (u : Str) (hx : x ≠ '/') :
    index_of_sub ['/', '/'] ('/' :: x :: u)
      = (index_of_sub ['/', '/'] (x :: u)).map (· + 1) := by
  have hb : ('/' == x) = false := by
    rw [beq_eq_false_iff_ne]
    exact fun e => hx e.symm
  rw [index_of_sub]
  simp [starts_with, hb]

/-- No "//" begins inside a text without separator. -/
theorem index_of_sub_slashes_append (t u : Str) (ht : '/' ∉ t)
    (hu : index_of_sub ['/', '/'] u = none) : index_of_sub ['/', '/'] (t ++ u) = none := by
  induction t with
  | nil => simpa using hu
  | cons x t' ih =>
    simp only [List.mem_cons, not_or] at ht
    rw [List.cons_append, index_of_sub_slashes_cons x _ (fun e => ht.1 e.symm), ih ht.2]
    rfl

/-- There is no "//" in plain names each preceded by a separator. -/
theorem index_of_sub_slashes_append_elems (ns : List Str) (hns : ∀ n ∈ ns, plain_name n) :
    index_of_sub ['/', '/'] (append_elems ns) = none := by
  induction ns with
  | nil => simp [append_elems, index_of_sub]
  | cons n ns' ih =>
    have hn := hns n (List.mem_cons_self _ _)
    have ih' := ih (fun m hm => hns m (List.mem_cons_of_mem _ hm))
    have htail := index_of_sub_slashes_append n (append_elems ns') hn.1 ih'
    cases hnn : n with
    | nil => exact absurd hnn (plain_name_ne_nil n hn)
    | cons x t =>
      rw [hnn] at htail
      have hx : x ≠ '/' := by
        have := hn.1
        rw [hnn] at this
        simp only [List.mem_cons, not_or] at this
        exact fun e => this.1 e.symm
      show index_of_sub ['/', '/'] ('/' :: x :: (t ++ append_elems ns')) = none
      rw [index_of_sub_slashes_cons_cons x _ hx]
      rw [List.cons_append] at htail
      rw [htail]
      rfl

/-- The split loop on a text without separator followed by plain names, each
preceded by a separator: the text, with what was read before it, is the first
element and the names are the others. -/
theorem split_elems_plain (ns : List Str) (hns : ∀ n ∈ ns, plain_name n) (cur t : Str)
    (ht : '/' ∉ t) (hne : cur ++ t ≠ []) :
    split_elems cur (t ++ append_elems ns) = (cur ++ t) :: ns := by
  induction ns generalizing cur t with
  | nil =>
    induction t generalizing cur with
    | nil =>
      simp only [List.append_nil] at hne
      simp [append_elems, split_elems, hne]
    | cons x t' iht =>
      simp only [List.mem_cons, not_or] at ht
      have hx : ¬ x = '/' := fun e => ht.1 e.symm
      show split_elems cur (x :: (t' ++ append_elems [])) = _
      rw [split_elems, if_neg hx, iht (cur ++ [x]) ht.2 (by simp)]
      simp
  | cons n ns' ih =>
    induction t generalizing cur with
    | nil =>
      have hn := hns n (List.mem_cons_self _ _)
      simp only [List.append_nil] at hne ⊢
      show split_elems cur ('/' :: (n ++ append_elems ns')) = _
      rw [split_elems, if_pos rfl]
      have := ih (fun m hm => hns m (List.mem_cons_of_mem _ hm)) [] n hn.1
        (by simpa using plain_name_ne_nil n hn)
      rw [this]
      simp
    | cons x t' iht =>
      simp only [List.mem_cons, not_or] at ht
      have hx : ¬ x = '/' := fun e => ht.1 e.symm
      show split_elems cur (x :: (t' ++ append_elems (n :: ns'))) = _
      rw [split_elems, if_neg hx, iht (cur ++ [x]) ht.2 (by simp)]
      simp


/-- An element without `$` and `(` passes the validation. -/
theorem validate_elem_plain (e : Str) (h1 : '$' ∉ e) (h2 : '(' ∉ e) : validate_elem e = none := by
  unfold validate_elem
  rw [index_of_not_mem '$' e h1]
  simp [index_of_not_mem '(' e h2]

/-- Elements without `$` and `(` pass the validation loop. -/
theorem validate_elems_plain (es : List Str) (h : ∀ e ∈ es, '$' ∉ e ∧ '(' ∉ e) :
    validate_elems es = none := by
  induction es with
  | nil => rfl
  | cons e es' ih =>
    have he := h e (List.mem_cons_self _ _)
    simp only [validate_elems, validate_elem_plain e he.1 he.2]
    exact ih (fun m hm => h m (List.mem_cons_of_mem _ hm))

/-- The inner scan erases nothing when no element after its first is "..". -/
theorem rde_scan_none (prev : Str) (xs : List Str) (h : ∀ e ∈ xs, e ≠ doubleElipses) :
    rde_scan (prev :: xs) = none := by
  induction xs generalizing prev with
  | nil => rfl
  | cons it tail ih =>
    have hit := h it (List.mem_cons_self _ _)
    simp only [rde_scan, hit, false_and, if_false]
    rw [ih it (fun m hm => h m (List.mem_cons_of_mem _ hm))]
    rfl

/-- On a path with a root, an element after it and no ".." further on,
`remove_double_elipses` ends after one iteration and changes nothing. -/
theorem remove_double_elipses_rooted_plain (p : basic_path) (r x : Str) (xs : List Str)
    (hp : p.path_elems = r :: x :: xs)
    (hroot : (p.drive_specified || p.unc_path || !p.relative) = true)
    (hdd : ∀ e ∈ xs, e ≠ doubleElipses) : remove_double_elipses p = some p := by
  have hpass : rde_pass p = (p, true) := by
    unfold rde_pass
    simp only [hroot, if_true, hp, List.drop_succ_cons, List.drop_zero, rde_scan_none x xs hdd]
  unfold remove_double_elipses
  simp [rde_loop, hpass]

/-- The part of `initialize` after the root classification, when the root
element and the split elements are at least two, hold no `$`, no `(`, no
"." and, after the second, no "..": they are the elements of the result. -/
theorem initialize_rest_rooted_plain (p0 : basic_path) (path_ : Str) (k : Nat) (r x : Str)
    (xs : List Str)
    (hsplit : p0.path_elems ++ split_elems [] (path_.drop k) = r :: x :: xs)
    (hval : ∀ e ∈ r :: x :: xs, '$' ∉ e ∧ '(' ∉ e)
    (hdot : ∀ e ∈ r :: x :: xs, e ≠ ['.'])
    (hdd : ∀ e ∈ xs, e ≠ doubleElipses)
    (hroot : (p0.drive_specified || p0.unc_path || !p0.relative) = true) :
    initialize_rest p0 path_ k = .returns { p0 with path_elems := r :: x :: xs } := by
  have hfilter : (r :: x :: xs).filter (· ≠ ['.']) = r :: x :: xs := by
    rw [List.filter_eq_self]
    intro e he
    simpa using hdot e he
  unfold initialize_rest
  simp only [hsplit, validate_elems_plain _ hval, hfilter, List.length_cons,
    Nat.add_one_ne_zero, if_false]
  rw [remove_double_elipses_rooted_plain
    ⟨r :: x :: xs, p0.relative, p0.drive_specified, p0.unc_path⟩ r x xs rfl hroot hdd]


/-- A text that begins with a separator does not begin with "...". -/
theorem find_str_dots_slash (t : Str) : find_str ('/' :: t) ['.', '.', '.'] 0 ≠ some 0 := by
  unfold find_str
  rw [List.drop_zero, index_of_sub]
  cases index_of_sub ['.', '.', '.'] t <;> simp [starts_with]

/-- The UNC branch of `initialize`, on a text "//" `t` without backslash and
without "//" after index 0. -/
theorem initialize_path_unc_branch (t : Str) (hmap : '\\' ∉ t)
    (hdbl : index_of_sub ['/', '/'] ('/' :: t) = none) :
    initialize_path ('/' :: '/' :: t) =
      match index_of '/' t with
      | none => .returns ⟨['/' :: '/' :: t], false, false, true⟩
      | some k =>
        initialize_rest ⟨['/' :: '/' :: t.take k], false, false, true⟩ ('/' :: '/' :: t)
          (k + 2 + 1) := by
  have hm : ('/' :: '/' :: t).map (fun c => if c = '\\' then '/' else c) = '/' :: '/' :: t := by
    apply map_backslash_id
    simp only [List.mem_cons, not_or]
    exact ⟨by decide, by decide, hmap⟩
  have h1 : find_str ('/' :: '/' :: t) ['/', '/'] 1 = none := by
    simp [find_str, hdbl]
  have h2 := find_str_dots_slash ('/' :: t)
  unfold initialize_path
  simp only [hm, h1, h2]
  simp only [char_at, find_char, substr]
  cases hi : index_of '/' t with
  | none => simp [hi]
  | some k => simp [hi]


/-- A character other than the separator that is in no element is not in the
text that `append_elems` builds. -/
theorem not_mem_append_elems (c : Char) (ns : List Str) (hc : c ≠ '/')
    (h : ∀ n ∈ ns, c ∉ n) : c ∉ append_elems ns := by
  intro hmem
  rcases mem_append_elems c ns hmem with h1 | ⟨n, hn, hcn⟩
  · exact hc h1
  · exact h n hn hcn

/-- C16. For a plain host name `h` and plain names `ns`, possibly none, the
raw string "//" `h` followed by "/" `n` for each `n` is constructed as the
UNC path with elements "//" `h` and then `ns`, not relative and not
drive-specified: the root element is the text before the first separator
after index 2, or the whole string when there is none. -/
theorem initialize_path_unc (h : Str) (ns : List Str) (hh : plain_name h)
    (hns : ∀ n ∈ ns, plain_name n) :
    initialize_path ('/' :: '/' :: h ++ append_elems ns)
      = .returns ⟨('/' :: '/' :: h) :: ns, false, false, true⟩ := by
  have hback : '\\' ∉ h ++ append_elems ns := by
    rw [List.mem_append, not_or]
    exact ⟨hh.2.1, not_mem_append_elems _ ns (by decide) (fun n hn => (hns n hn).2.1)⟩
  have hdbl : index_of_sub ['/', '/'] ('/' :: (h ++ append_elems ns)) = none := by
    cases hhn : h with
    | nil => exact absurd hhn (plain_name_ne_nil h hh)
    | cons x t =>
      have hx : x ≠ '/' := by
        have := hh.1
        rw [hhn] at this
        simp only [List.mem_cons, not_or] at this
        exact fun e => this.1 e.symm
      rw [List.cons_append, index_of_sub_slashes_cons_cons x _ hx, ← List.cons_append, ← hhn,
        index_of_sub_slashes_append h _ hh.1 (index_of_sub_slashes_append_elems ns hns)]
      rfl
  show initialize_path ('/' :: '/' :: (h ++ append_elems ns)) = _
  rw [initialize_path_unc_branch _ hback hdbl]
  cases ns with
  | nil =>
    simp only [append_elems, List.append_nil, index_of_not_mem '/' h hh.1]
  | cons n ns' =>
    have hn := hns n (List.mem_cons_self _ _)
    have hns' : ∀ m ∈ ns', plain_name m := fun m hm => hns m (List.mem_cons_of_mem _ hm)
    have hidx : index_of '/' (h ++ append_elems (n :: ns')) = some h.length :=
      index_of_append_cons '/' h (n ++ append_elems ns') hh.1
    simp only [hidx]
    have htake : (h ++ append_elems (n :: ns')).take h.length = h := List.take_left h _
    rw [htake]
    apply initialize_rest_rooted_plain
    · have hdrop : ('/' :: '/' :: (h ++ append_elems (n :: ns'))).drop (h.length + 2 + 1)
          = n ++ append_elems ns' := by
        have : '/' :: '/' :: (h ++ append_elems (n :: ns'))
            = ('/' :: '/' :: h ++ ['/']) ++ (n ++ append_elems ns') := by
          simp [append_elems]
        rw [this]
        exact List.drop_left' (by simp)
      rw [hdrop, split_elems_plain ns' hns' [] n hn.1 (by simpa using plain_name_ne_nil n hn)]
      rfl
    · intro e he
      simp only [List.mem_cons] at he
      rcases he with rfl | rfl | he
      · simp only [List.mem_cons, not_or]
        exact ⟨⟨by decide, by decide, hh.2.2.1⟩, ⟨by decide, by decide, hh.2.2.2.1⟩⟩
      · exact ⟨hn.2.2.1, hn.2.2.2.1⟩
      · exact ⟨(hns' e he).2.2.1, (hns' e he).2.2.2.1⟩
    · intro e he
      simp only [List.mem_cons] at he
      rcases he with rfl | rfl | he
      · simp
      · exact plain_name_ne_dot _ hn
      · exact plain_name_ne_dot e (hns' e he)
    · exact fun e he => plain_name_ne_dotdot e (hns' e he)
    · rfl

/-- C16 at the host "h" with the names "a", "b", and with no name. -/
theorem initialize_path_unc_witness :
    initialize_path "//h/a/b".toList
        = .returns ⟨["//h".toList, "a".toList, "b".toList], false, false, true⟩ ∧
      initialize_path "//h".toList = .returns ⟨["//h".toList], false, false, true⟩ :=
  ⟨initialize_path_unc "h".toList ["a".toList, "b".toList] (by decide) (by decide),
    initialize_path_unc "h".toList [] (by decide) (by decide)⟩



/-! ## Drive paths with at least one name -/

/-- A text whose first character is not a dot does not begin with "...". -/
theorem find_str_dots_ne (c : Char) (t : Str) (hc : c ≠ '.') :
    find_str (c :: t) ['.', '.', '.'] 0 ≠ some 0 := by
  have hb : ('.' == c) = false := by
    rw [beq_eq_false_iff_ne]
    exact fun e => hc e.symm
  unfold find_str
  rw [List.drop_zero, index_of_sub]
  cases index_of_sub ['.', '.', '.'] t <;> simp [starts_with, hb]

/-- A drive letter is none of the characters the parser gives a meaning to. -/
theorem letter_ne (L : Char) (hL : ('A' ≤ L ∧ L ≤ 'Z') ∨ ('a' ≤ L ∧ L ≤ 'z')) :
    L ≠ '/' ∧ L ≠ '\\' ∧ L ≠ '.' ∧ L ≠ '$' ∧ L ≠ '(' := by
  refine ⟨?_, ?_, ?_, ?_, ?_⟩ <;>
  · intro e
    subst e
    revert hL
    decide

/-- The drive-rooted half of C15 when at least one name follows: a letter,
":/" and plain names `n`, `ns` separated by "/" are constructed as the path
with elements the letter with ":/", then the names, drive-specified, not
relative and not UNC. -/
theorem initialize_path_drive_rooted (L : Char) (n : Str) (ns : List Str)
    (hL : ('A' ≤ L ∧ L ≤ 'Z') ∨ ('a' ≤ L ∧ L ≤ 'z')) (hn : plain_name n)
    (hns : ∀ m ∈ ns, plain_name m) :
    initialize_path (L :: ':' :: '/' :: (n ++ append_elems ns))
      = .returns ⟨[L, ':', '/'] :: n :: ns, false, true, false⟩ := by
  obtain ⟨hL1, hL2, hL3, hL4, hL5⟩ := letter_ne L hL
  have hback : '\\' ∉ L :: ':' :: '/' :: (n ++ append_elems ns) := by
    simp only [List.mem_cons, List.mem_append, not_or]
    exact ⟨fun e => hL2 e.symm, by decide, by decide, hn.2.1,
      not_mem_append_elems _ ns (by decide) (fun m hm => (hns m hm).2.1)⟩
  have hnone := index_of_sub_slashes_append n _ hn.1 (index_of_sub_slashes_append_elems ns hns)
  have hdbl : find_str (L :: ':' :: '/' :: (n ++ append_elems ns)) ['/', '/'] 1 = none := by
    cases hnn : n with
    | nil => exact absurd hnn (plain_name_ne_nil n hn)
    | cons x t =>
      have hx : x ≠ '/' := by
        have := hn.1
        rw [hnn] at this
        simp only [List.mem_cons, not_or] at this
        exact fun e => this.1 e.symm
      rw [hnn] at hnone
      simp only [find_str, List.length_cons, List.drop_succ_cons, List.drop_zero]
      rw [index_of_sub_slashes_cons ':' _ (by decide), List.cons_append,
        index_of_sub_slashes_cons_cons x _ hx, ← List.cons_append, hnone]
      simp
  have hdots := find_str_dots_ne L (':' :: '/' :: (n ++ append_elems ns)) hL3
  unfold initialize_path
  simp only [map_backslash_id _ hback, hdbl, hdots]
  simp only [char_at, substr, List.isEmpty_cons, Bool.false_eq_true, if_false, ne_eq,
    not_true_eq_false, false_and, List.getD_cons_zero, List.getD_cons_succ, List.length_cons,
    and_true, true_and, List.drop_zero, List.take_succ_cons, List.take_zero, hL1, hL, if_true,
    not_false_eq_true, Nat.le_add_left]
  apply initialize_rest_rooted_plain
  · simp only [List.drop_succ_cons, List.drop_zero, List.singleton_append]
    rw [split_elems_plain ns hns [] n hn.1 (by simpa using plain_name_ne_nil n hn)]
    rfl
  · intro e he
    simp only [List.mem_cons] at he
    rcases he with rfl | rfl | he
    · simp only [List.mem_cons, not_or]
      exact ⟨⟨fun e => hL4 e.symm, by decide, by decide, by simp⟩,
        ⟨fun e => hL5 e.symm, by decide, by decide, by simp⟩⟩
    · exact ⟨hn.2.2.1, hn.2.2.2.1⟩
    · exact ⟨(hns e he).2.2.1, (hns e he).2.2.2.1⟩
  · intro e he
    simp only [List.mem_cons] at he
    rcases he with rfl | rfl | he
    · simp
    · exact plain_name_ne_dot _ hn
    · exact plain_name_ne_dot e (hns e he)
  · exact fun e he => plain_name_ne_dotdot e (hns e he)
  · rfl


/-- The drive-relative half of C15 when at least one name follows: a letter,
":" and plain names `n`, `ns` separated by "/" are constructed as the path
with elements the letter with ":", then the names, drive-specified and
relative. -/
theorem initialize_path_drive_relative (L : Char) (n : Str) (ns : List Str)
    (hL : ('A' ≤ L ∧ L ≤ 'Z') ∨ ('a' ≤ L ∧ L ≤ 'z')) (hn : plain_name n)
    (hns : ∀ m ∈ ns, plain_name m) :
    initialize_path (L :: ':' :: (n ++ append_elems ns))
      = .returns ⟨[L, ':'] :: n :: ns, true, true, false⟩ := by
  obtain ⟨hL1, hL2, hL3, hL4, hL5⟩ := letter_ne L hL
  have hback : '\\' ∉ L :: ':' :: (n ++ append_elems ns) := by
    simp only [List.mem_cons, List.mem_append, not_or]
    exact ⟨fun e => hL2 e.symm, by decide, hn.2.1,
      not_mem_append_elems _ ns (by decide) (fun m hm => (hns m hm).2.1)⟩
  have hnone := index_of_sub_slashes_append n _ hn.1 (index_of_sub_slashes_append_elems ns hns)
  have hdbl : find_str (L :: ':' :: (n ++ append_elems ns)) ['/', '/'] 1 = none := by
    simp only [find_str, List.length_cons, List.drop_succ_cons, List.drop_zero]
    rw [index_of_sub_slashes_cons ':' _ (by decide), hnone]
    simp
  have hdots := find_str_dots_ne L (':' :: (n ++ append_elems ns)) hL3
  cases hnn : n with
  | nil => exact absurd hnn (plain_name_ne_nil n hn)
  | cons x t =>
    have hx : x ≠ '/' := by
      have := hn.1
      rw [hnn] at this
      simp only [List.mem_cons, not_or] at this
      exact fun e => this.1 e.symm
    rw [hnn] at hback hdbl hdots
    unfold initialize_path
    simp only [map_backslash_id _ hback, hdbl, hdots]
    simp only [char_at, substr, List.isEmpty_cons, Bool.false_eq_true, if_false, ne_eq,
      not_true_eq_false, false_and, List.getD_cons_zero, List.getD_cons_succ, List.length_cons,
      List.cons_append, and_true, true_and, List.drop_zero, List.take_succ_cons, List.take_zero,
      hL1, hL, hx, and_false, if_true, not_false_eq_true, Nat.le_add_left]
    rw [← List.cons_append, ← hnn]
    apply initialize_rest_rooted_plain
    · simp only [List.drop_succ_cons, List.drop_zero, List.singleton_append]
      rw [split_elems_plain ns hns [] n hn.1 (by simpa using plain_name_ne_nil n hn)]
      rfl
    · intro e he
      simp only [List.mem_cons] at he
      rcases he with rfl | rfl | he
      · simp only [List.mem_cons, not_or]
        exact ⟨⟨fun e => hL4 e.symm, by decide, by simp⟩,
          ⟨fun e => hL5 e.symm, by decide, by simp⟩⟩
      · exact ⟨hn.2.2.1, hn.2.2.2.1⟩
      · exact ⟨(hns e he).2.2.1, (hns e he).2.2.2.1⟩
    · intro e he
      simp only [List.mem_cons] at he
      rcases he with rfl | rfl | he
      · simp
      · exact plain_name_ne_dot _ hn
      · exact plain_name_ne_dot e (hns e he)
    · exact fun e he => plain_name_ne_dotdot e (hns e he)
    · rfl

/-! ## The glob matcher: the empty pattern, `*`, and termination -/

/-- C21. The empty pattern matches the empty name and no other: for every
name `n`, `glob_match n ""` is `true` exactly when `n` is empty. -/
theorem glob_match_empty_pattern (n : Str) : glob_match n [] = true ↔ n = [] := by
  cases n with
  | nil => simp [glob_match]
  | cons c t => simp [glob_match, glob_loop_cons_nil]

/-- At a `*` with the name not exhausted, the answer is the disjunction of
the three recursive calls. -/
theorem glob_match_star (c : Char) (n p : Str) :
    glob_match (c :: n) ('*' :: p)
      = (glob_match n ('*' :: p) || glob_match (c :: n) p || glob_match n p) := by
  rw [glob_match, glob_loop_cons_cons]
  simp

/-- C27. On a name `n` that is not empty, a pattern that begins with `*`
matches exactly when the rest of the pattern matches some final segment of
`n`, the whole of `n` and the empty segment included. -/
theorem glob_match_star_suffix (n p : Str) (hn : n ≠ []) :
    glob_match n ('*' :: p) = true ↔ ∃ v, v <:+ n ∧ glob_match v p = true := by
  induction n with
  | nil => exact absurd rfl hn
  | cons c t ih =>
    rw [glob_match_star]
    simp only [Bool.or_eq_true]
    cases t with
    | nil =>
      have h0 : glob_match [] ('*' :: p) = false := by simp [glob_match]
      simp only [h0, Bool.false_eq_true, false_or]
      constructor
      · rintro (h | h)
        · exact ⟨[c], List.suffix_refl _, h⟩
        · exact ⟨[], List.nil_suffix, h⟩
      · rintro ⟨v, hv, hm⟩
        rcases List.suffix_cons_iff.mp hv with rfl | hv'
        · exact Or.inl hm
        · rw [List.suffix_nil] at hv'
          subst hv'
          exact Or.inr hm
    | cons d t' =>
      rw [ih (by simp)]
      constructor
      · rintro ((⟨v, hv, hm⟩ | h) | h)
        · exact ⟨v, hv.trans (List.suffix_cons _ _), hm⟩
        · exact ⟨_, List.suffix_refl _, h⟩
        · exact ⟨_, List.suffix_cons _ _, h⟩
      · rintro ⟨v, hv, hm⟩
        rcases List.suffix_cons_iff.mp hv with rfl | hv'
        · exact Or.inl (Or.inr hm)
        · exact Or.inl (Or.inl ⟨v, hv', hm⟩)

/-- C27 at the name "ab" and the pattern "*b". -/
theorem glob_match_star_suffix_witness :
    glob_match "ab".toList ('*' :: "b".toList) = true ↔
      ∃ v, v <:+ "ab".toList ∧ glob_match v "b".toList = true :=
  glob_match_star_suffix "ab".toList "b".toList (by decide)

/-- One turn of the loop with its recursive calls handed out. -/
theorem glob_loop_with_cons_cons (call : Str → Str → Option Bool) (c : Char) (i' : Str)
    (d : Char) (p' : Str) :
    glob_loop_with call (c :: i') (d :: p') =
      if d = '*' then
        or_call (call i' (d :: p')) (or_call (call (c :: i') p') (call i' p'))
      else if d = '\\' then
        match p' with
        | [] => some false
        | e :: p'' => if e ≠ c then some false else glob_loop_with call i' p''
      else if d = '?' then glob_loop_with call i' p'
      else if d ≠ c then some false else glob_loop_with call i' p' := by
  rfl

/-- The loop with its recursive calls handed out computes `glob_loop` when
the calls answer as `glob_match` does. -/
theorem glob_loop_with_eq (call : Str → Str → Option Bool) (i p : Str)
    (hcall : ∀ x y, x.length + y.length < i.length + p.length →
      call x y = some (glob_match x y)) :
    glob_loop_with call i p = some (glob_loop i p) := by
  induction i generalizing p with
  | nil => cases p <;> simp [glob_loop_with, glob_loop_nil]
  | cons c i' ih =>
    cases p with
    | nil => simp [glob_loop_with, glob_loop_cons_nil]
    | cons d p' =>
      have hstep : ∀ q : Str, q.length ≤ p'.length →
          glob_loop_with call i' q = some (glob_loop i' q) := by
        intro q hq
        apply ih
        intro x y hxy
        apply hcall
        simp only [List.length_cons]
        omega
      rw [glob_loop_cons_cons, glob_loop_with_cons_cons]
      by_cases h1 : d = '*'
      · simp only [h1, if_true]
        rw [hcall i' ('*' :: p') (by simp), hcall (c :: i') p' (by simp),
          hcall i' p' (by simp only [List.length_cons]; omega)]
        cases glob_match i' ('*' :: p') <;> cases glob_match (c :: i') p' <;> simp [or_call]
      · simp only [h1, if_false]
        by_cases h2 : d = '\\'
        · simp only [h2, if_true]
          cases p' with
          | nil => rfl
          | cons e p'' =>
            simp only
            by_cases h3 : e = c
            · simp only [h3, ne_eq, not_true_eq_false, if_false]
              exact hstep p'' (by simp)
            · simp [h3]
        · simp only [h2, if_false]
          by_cases h4 : d = '?'
          · simp only [h4, if_true]
            exact hstep p' (le_refl _)
          · simp only [h4, if_false]
            by_cases h5 : d = c
            · simp only [h5, ne_eq, not_true_eq_false, if_false]
              exact hstep p' (le_refl _)
            · simp [h5]

/-- C30. The recursion of `glob_match` ends: run with more nested calls
allowed than the name and the pattern have characters left together, it
returns, with the value of `glob_match`; every call made at a `*` is on a
smaller sum of the two lengths, and the loop advances the name otherwise. -/
theorem glob_match_fuel_total (fuel : Nat) (i p : Str) (h : i.length + p.length < fuel) :
    glob_match_fuel fuel i p = some (glob_match i p) := by
  induction fuel generalizing i p with
  | zero => omega
  | succ fuel ih =>
    cases i with
    | nil => simp [glob_match_fuel, glob_match]
    | cons c i' =>
      rw [glob_match_fuel, glob_match]
      apply glob_loop_with_eq
      intro x y hxy
      exact ih x y (by omega)

/-- C30 at the name "abc" and the pattern "a*c", with 7 nested calls allowed. -/
theorem glob_match_fuel_total_witness :
    "abc".toList.length + "a*c".toList.length < 7 ∧
      glob_match_fuel 7 "abc".toList "a*c".toList
        = some (glob_match "abc".toList "a*c".toList) :=
  ⟨by decide, glob_match_fuel_total 7 "abc".toList "a*c".toList (by decide)⟩

/-! ## A closing parenthesis without `$` -/

/-- C28. The code at the raw string "a)": the element holds a parenthesis
and no `$`, the second branch of the validation tests `find('(')` twice and
never `find(')')`, and the path is constructed.  With "a(" the construction
throws "Path element contains parentheses, but has invalid environment
variable format". -/
theorem closing_parenthesis_accepted :
    initialize_path "a)".toList = .returns ⟨["a)".toList], true, false, false⟩ ∧
    initialize_path "a(".toList = .throws .parentheses_format := by
  decide

/-! ## `filename`, `stem` and `extension` of a constructed path -/

/-- The search for the last occurrence fails exactly on a text without the
character. -/
theorem find_last_of_none (c : Char) (f : Str) : find_last_of c f = none ↔ c ∉ f := by
  induction f with
  | nil => simp [find_last_of]
  | cons x t ih =>
    simp only [find_last_of, List.mem_cons, not_or]
    cases hl : find_last_of c t with
    | some k =>
      have : ¬ c ∉ t := fun h => by rw [ih.mpr h] at hl; cases hl
      simp [this]
    | none =>
      have hc := ih.mp hl
      by_cases hx : x = c
      · simp [hx]
      · have hx' : ¬ c = x := fun e => hx e.symm
        simp [hx, hx', hc]

/-- The last occurrence splits the text: what is before it, the character,
and a rest in which the character does not occur. -/
theorem find_last_of_some (c : Char) (f : Str) (k : Nat) (h : find_last_of c f = some k) :
    f.take k ++ c :: f.drop (k + 1) = f ∧ c ∉ f.drop (k + 1) := by
  induction f generalizing k with
  | nil => simp [find_last_of] at h
  | cons x t ih =>
    simp only [find_last_of] at h
    cases hl : find_last_of c t with
    | some j =>
      simp only [hl, Option.some.injEq] at h
      subst h
      obtain ⟨h1, h2⟩ := ih j hl
      simp only [List.take_succ_cons, List.drop_succ_cons, List.cons_append]
      exact ⟨by rw [h1], h2⟩
    | none =>
      simp only [hl] at h
      split at h
      · next hx =>
        cases h
        simp only [List.take_zero, List.nil_append, zero_add, List.drop_succ_cons,
          List.drop_zero]
        exact ⟨by rw [hx], (find_last_of_none c t).mp hl⟩
      · cases h

/-- C22. For a path constructed from a raw string, with last element `f`:
`filename` is `f`; when `f` holds a dot, `stem`, a dot and `extension` make
up `f`, and `extension` holds no dot; when `f` holds no dot, `stem` and
`extension` are both `f`. -/
theorem filename_stem_extension (s : Str) (p : basic_path)
    (h : initialize_path s = .returns p) :
    ∃ f, p.path_elems.getLast? = some f ∧ filename p = f ∧
      ('.' ∈ f → stem p ++ '.' :: extension p = f ∧ '.' ∉ extension p) ∧
      ('.' ∉ f → stem p = f ∧ extension p = f) := by
  have hne : p.path_elems ≠ [] := by
    rcases initialize_path_returns_cases s p h with
      ⟨he, _⟩ | ⟨p0, path_, k, n, _, _, _, _, _, hn⟩
    · simp [he]
    · exact (rde_loop_spec n _ p hn).2.2.2.2.1
  obtain ⟨f, hf⟩ : ∃ f, p.path_elems.getLast? = some f := by
    cases hl : p.path_elems.getLast? with
    | none => exact absurd (List.getLast?_eq_none_iff.mp hl) hne
    | some f => exact ⟨f, rfl⟩
  have hfd : p.path_elems.getLastD [] = f := by
    rw [List.getLastD_eq_getLast?, hf]
    rfl
  refine ⟨f, hf, hfd, ?_, ?_⟩
  · intro hdot
    unfold stem extension
    simp only [hfd]
    cases hl : find_last_of '.' f with
    | none => exact absurd hdot ((find_last_of_none '.' f).mp hl)
    | some k =>
      simp only [substr, List.drop_zero]
      exact find_last_of_some '.' f k hl
  · intro hdot
    unfold stem extension
    simp only [hfd, (find_last_of_none '.' f).mpr hdot, List.drop_zero, and_self]

/-- C22 at the raw string "/d/a.tar.gz". -/
theorem filename_stem_extension_witness :
    initialize_path "/d/a.tar.gz".toList
        = .returns ⟨["/".toList, "d".toList, "a.tar.gz".toList], false, false, false⟩ ∧
      ∃ f, (⟨["/".toList, "d".toList, "a.tar.gz".toList], false, false, false⟩ :
          basic_path).path_elems.getLast? = some f ∧
        filename ⟨["/".toList, "d".toList, "a.tar.gz".toList], false, false, false⟩ = f ∧
        ('.' ∈ f →
          stem ⟨["/".toList, "d".toList, "a.tar.gz".toList], false, false, false⟩ ++
            '.' :: extension ⟨["/".toList, "d".toList, "a.tar.gz".toList], false, false, false⟩
              = f ∧
          '.' ∉ extension ⟨["/".toList, "d".toList, "a.tar.gz".toList], false, false, false⟩) ∧
        ('.' ∉ f →
          stem ⟨["/".toList, "d".toList, "a.tar.gz".toList], false, false, false⟩ = f ∧
          extension ⟨["/".toList, "d".toList, "a.tar.gz".toList], false, false, false⟩ = f) :=
  ⟨by decide, filename_stem_extension "/d/a.tar.gz".toList _ (by decide)⟩

/-! ## `remove_double_elipses` and the single stack pass -/

/-- The stack step on a stack that is not empty. -/
theorem stack_step_cons (skip : Nat) (top : Str) (below : List Str) (e : Str) :
    stack_step skip (top :: below) e =
      if e = doubleElipses ∧ skip < (top :: below).length ∧ top ≠ doubleElipses ∧
          char_at top 0 ≠ '$' then below
      else e :: top :: below := rfl

/-- An element is pushed when the stack does not reach past the root
position. -/
theorem stack_step_low (skip : Nat) (st : List Str) (e : Str) (h : st.length ≤ skip) :
    stack_step skip st e = e :: st := by
  cases st with
  | nil => rfl
  | cons top below =>
    rw [stack_step_cons, if_neg]
    intro ⟨_, h2, _⟩
    omega

/-- The elements up to the root position, and the first one after it, are
pushed. -/
theorem foldl_stack_step_low (skip : Nat) (pre st rest : List Str)
    (h : st.length + pre.length ≤ skip + 1) :
    (pre ++ rest).foldl (stack_step skip) st
      = rest.foldl (stack_step skip) (pre.reverse ++ st) := by
  induction pre generalizing st with
  | nil => rfl
  | cons e pre' ih =>
    simp only [List.length_cons] at h
    rw [List.cons_append, List.foldl_cons, stack_step_low skip st e (by omega),
      ih (e :: st) (by simp only [List.length_cons]; omega)]
    simp

/-- When the inner scan of the source finds nothing to erase, the stack pass
pushes every element. -/
theorem foldl_stack_step_scan_none (skip : Nat) (l : List Str) (t : Str) (st' : List Str)
    (hlen : skip < (t :: st').length) (h : rde_scan (t :: l) = none) :
    l.foldl (stack_step skip) (t :: st') = l.reverse ++ t :: st' := by
  induction l generalizing t st' with
  | nil => rfl
  | cons it tail ih =>
    simp only [rde_scan] at h
    split at h
    · cases h
    · next hc =>
      have hs : rde_scan (it :: tail) = none := by
        cases hr : rde_scan (it :: tail) with
        | none => rfl
        | some r => simp [hr] at h
      have hstep : stack_step skip (t :: st') it = it :: t :: st' := by
        rw [stack_step_cons, if_neg]
        intro ⟨h1, _, h3, h4⟩
        exact hc ⟨h1, h3, h4⟩
      rw [List.foldl_cons, hstep, ih it (t :: st') (by simp only [List.length_cons] at hlen ⊢; omega) hs]
      simp

/-- When the inner scan of the source erases a pair, the stack pass gives
the same stack on the list before and after the erase. -/
theorem foldl_stack_step_scan_some (skip : Nat) (l l' : List Str) (t : Str) (st' : List Str)
    (hlen : skip < (t :: st').length) (hpush : stack_step skip st' t = t :: st')
    (h : rde_scan (t :: l) = some l') :
    l.foldl (stack_step skip) (t :: st') = l'.foldl (stack_step skip) st' := by
  induction l generalizing t st' l' with
  | nil => simp [rde_scan] at h
  | cons it tail ih =>
    simp only [rde_scan] at h
    split at h
    · next hc =>
      cases h
      have hstep : stack_step skip (t :: st') it = st' := by
        rw [stack_step_cons, if_pos ⟨hc.1, hlen, hc.2.1, hc.2.2⟩]
      rw [List.foldl_cons, hstep]
    · next hc =>
      cases hr : rde_scan (it :: tail) with
      | none => simp [hr] at h
      | some r =>
        simp only [hr, Option.map_some', Option.some.injEq] at h
        subst h
        have hstep : stack_step skip (t :: st') it = it :: t :: st' := by
          rw [stack_step_cons, if_neg]
          intro ⟨h1, _, h3, h4⟩
          exact hc ⟨h1, h3, h4⟩
        rw [List.foldl_cons, hstep,
          ih r it (t :: st') (by simp only [List.length_cons] at hlen ⊢; omega) hstep hr,
          List.foldl_cons, hpush]

/-- One iteration of the loop of `remove_double_elipses` does not change
what the stack pass gives, and an iteration that sets `isDone` leaves the
list that the stack pass gives. -/
theorem rde_pass_stack_pass (p q : basic_path) (b : Bool) (h : rde_pass p = (q, b)) :
    stack_pass (if (p.drive_specified || p.unc_path || !p.relative) = true then 1 else 0)
        q.path_elems
      = stack_pass (if (p.drive_specified || p.unc_path || !p.relative) = true then 1 else 0)
        p.path_elems ∧
    (b = true → q.path_elems
      = stack_pass (if (p.drive_specified || p.unc_path || !p.relative) = true then 1 else 0)
        p.path_elems) := by
  unfold rde_pass at h
  simp only at h
  generalize (if (p.drive_specified || p.unc_path || !p.relative) = true then 1 else 0)
    = skip at h ⊢
  split at h
  · cases h
    simp
  · next x xs hd =>
    have hlen : (p.path_elems.take skip).length = skip := by
      have := congrArg List.length hd
      simp only [List.length_drop, List.length_cons] at this
      rw [List.length_take]
      omega
    have hsplit : p.path_elems = p.path_elems.take skip ++ x :: xs := by
      rw [← hd, List.take_append_drop]
    have hstart : stack_pass skip p.path_elems
        = (xs.foldl (stack_step skip) (x :: (p.path_elems.take skip).reverse)).reverse := by
      have h1 := foldl_stack_step_low skip (p.path_elems.take skip ++ [x]) [] xs
        (by simp only [List.length_nil, List.length_append, List.length_singleton]; omega)
      unfold stack_pass
      simp only [List.append_assoc, List.singleton_append, List.reverse_append,
        List.reverse_cons, List.reverse_nil, List.nil_append, List.append_nil,
        List.cons_append] at h1
      rw [← hsplit] at h1
      rw [h1]
    split at h
    · next l hs =>
      cases h
      refine ⟨?_, by simp⟩
      rw [hstart, foldl_stack_step_scan_some skip xs l x _
        (by simp only [List.length_cons, List.length_reverse]; omega)
        (stack_step_low skip _ x (by simp only [List.length_reverse]; omega)) hs]
      unfold stack_pass
      rw [foldl_stack_step_low skip (p.path_elems.take skip) [] l
        (by simp only [List.length_nil]; omega)]
      simp
    · next hs =>
      cases h
      refine ⟨rfl, fun _ => ?_⟩
      rw [hstart, foldl_stack_step_scan_none skip xs x _
        (by simp only [List.length_cons, List.length_reverse]; omega) hs]
      simp only [List.reverse_append, List.reverse_reverse, List.reverse_cons,
        List.append_assoc, List.singleton_append]
      exact hsplit

/-- C26. When `remove_double_elipses` returns, its result is the path with
the same flags whose elements are those the single stack pass leaves: each
element is pushed, except that ".." pops a top that lies after the root
position (index at least 1 for a path with a root, at least 0 otherwise), is
not ".." and does not begin with `$`. -/
theorem remove_double_elipses_stack_pass (p q : basic_path)
    (h : remove_double_elipses p = some q) :
    q = ⟨stack_pass (if (p.drive_specified || p.unc_path || !p.relative) = true then 1 else 0)
        p.path_elems, p.relative, p.drive_specified, p.unc_path⟩ := by
  unfold remove_double_elipses at h
  generalize p.path_elems.length + 1 = n at h
  induction n generalizing p with
  | zero => simp [rde_loop] at h
  | succ n ih =>
    simp only [rde_loop] at h
    split at h
    · next r hr =>
      cases h
      obtain ⟨_, h2⟩ := rde_pass_stack_pass p _ true hr
      obtain ⟨f1, f2, f3, _⟩ := rde_pass_spec p _ true hr
      have h2' := h2 rfl
      cases q
      simp only at f1 f2 f3 h2'
      simp only [basic_path.mk.injEq]
      exact ⟨h2', f1, f2, f3⟩
    · next r hr =>
      obtain ⟨h1, _⟩ := rde_pass_stack_pass p r false hr
      obtain ⟨f1, f2, f3, _⟩ := rde_pass_spec p r false hr
      have := ih r h
      rw [this, f1, f2, f3, h1]

/-- C26 at the elements of "a/./b/../c" once "." is removed. -/
theorem remove_double_elipses_stack_pass_witness :
    remove_double_elipses ⟨["a".toList, "b".toList, "..".toList, "c".toList], true, false, false⟩
        = some ⟨["a".toList, "c".toList], true, false, false⟩ ∧
      (⟨["a".toList, "c".toList], true, false, false⟩ : basic_path)
        = ⟨stack_pass 0 ["a".toList, "b".toList, "..".toList, "c".toList], true, false, false⟩ :=
  ⟨by decide,
    remove_double_elipses_stack_pass
      ⟨["a".toList, "b".toList, "..".toList, "c".toList], true, false, false⟩ _ (by decide)⟩

/-- An iteration that neither sets `isDone` nor changes the path found no
element at `startIt`. -/
theorem rde_pass_stuck (p : basic_path) (h : rde_pass p = (p, false)) :
    p.path_elems.length
      ≤ (if (p.drive_specified || p.unc_path || !p.relative) = true then 1 else 0) := by
  unfold rde_pass at h
  simp only at h
  generalize (if (p.drive_specified || p.unc_path || !p.relative) = true then 1 else 0)
    = skip at h ⊢
  cases hd : p.path_elems.drop skip with
  | nil =>
    have := congrArg List.length hd
    simp only [List.length_drop, List.length_nil] at this
    omega
  | cons x xs =>
    simp only [hd] at h
    have h3 := congrArg List.length hd
    simp only [List.length_drop, List.length_cons] at h3
    cases hs : rde_scan (x :: xs) with
    | none => simp [hs] at h
    | some l =>
      simp only [hs, Prod.mk.injEq, and_true] at h
      have hl := rde_scan_length _ _ hs
      have h2 := congrArg (fun q => q.path_elems.length) h
      simp only [List.length_append, List.length_take, List.length_cons] at h2 hl
      omega

/-- The loop of `remove_double_elipses` ends whenever the stack pass leaves an
element after the root position; the result is then the one C26 describes. -/
theorem remove_double_elipses_returns (p : basic_path)
    (h : (if (p.drive_specified || p.unc_path || !p.relative) = true then 1 else 0)
      < (stack_pass (if (p.drive_specified || p.unc_path || !p.relative) = true then 1 else 0)
          p.path_elems).length) :
    ∃ q, remove_double_elipses p = some q := by
  suffices hs : ∀ (m : Nat) (p : basic_path), p.path_elems.length ≤ m →
      (if (p.drive_specified || p.unc_path || !p.relative) = true then 1 else 0)
        < (stack_pass
            (if (p.drive_specified || p.unc_path || !p.relative) = true then 1 else 0)
            p.path_elems).length →
      ∃ n q, rde_loop n p = some q by
    obtain ⟨n, q, hq⟩ := hs _ p (le_refl _) h
    exact ⟨q, rde_loop_budget n p q hq⟩
  intro m
  induction m using Nat.strong_induction_on with
  | _ m ih =>
    intro p hm hlt
    cases hp : rde_pass p with
    | mk r b =>
      cases b with
      | true => exact ⟨1, r, by simp [rde_loop, hp]⟩
      | false =>
        obtain ⟨h1, _⟩ := rde_pass_stack_pass p r false hp
        obtain ⟨f1, f2, f3, _⟩ := rde_pass_spec p r false hp
        rcases rde_pass_not_done p r hp with heq | hlen
        · exfalso
          subst heq
          have hle := rde_pass_stuck r hp
          generalize (if (r.drive_specified || r.unc_path || !r.relative) = true then 1 else 0)
            = skip at hle hlt
          have hfold := foldl_stack_step_low skip r.path_elems [] []
            (by simp only [List.length_nil]; omega)
          unfold stack_pass at hlt
          simp only [List.append_nil, List.foldl_nil] at hfold
          rw [hfold] at hlt
          simp only [List.length_reverse] at hlt
          omega
        · have hr : r.path_elems.length < m := by omega
          obtain ⟨n, q, hq⟩ := ih _ hr r (le_refl _) (by rw [f1, f2, f3, h1]; exact hlt)
          exact ⟨n + 1, q, by simp [rde_loop, hp, hq]⟩

/-! ## Elements each followed by a separator -/

/-- The text of no element is empty. -/
theorem slash_terminated_nil : slash_terminated [] = [] := rfl

/-- The text of elements begins with the first element and a separator. -/
theorem slash_terminated_cons (e : Str) (es : List Str) :
    slash_terminated (e :: es) = e ++ '/' :: slash_terminated es := by
  simp [slash_terminated]

/-- The text of two lists of elements is the two texts one after the other. -/
theorem slash_terminated_append (a b : List Str) :
    slash_terminated (a ++ b) = slash_terminated a ++ slash_terminated b := by
  simp [slash_terminated]

/-- The split loop closes an element at the first separator. -/
theorem split_elems_to_separator (cur t rest : Str) (ht : '/' ∉ t) :
    split_elems cur (t ++ '/' :: rest) = (cur ++ t) :: split_elems [] rest := by
  induction t generalizing cur with
  | nil => simp [split_elems]
  | cons x t' ih =>
    simp only [List.mem_cons, not_or] at ht
    have hx : ¬ x = '/' := fun e => ht.1 e.symm
    show split_elems cur (x :: (t' ++ '/' :: rest)) = _
    rw [split_elems, if_neg hx, ih (cur ++ [x]) ht.2]
    simp

/-- The split loop gives back elements without separator that were each
followed by one. -/
theorem split_elems_terminated (es : List Str) (hes : ∀ e ∈ es, '/' ∉ e) :
    split_elems [] (slash_terminated es) = es := by
  induction es with
  | nil => rfl
  | cons e es' ih =>
    rw [slash_terminated_cons, split_elems_to_separator [] e _ (hes e (List.mem_cons_self _ _)),
      ih (fun m hm => hes m (List.mem_cons_of_mem _ hm))]
    rfl

/-- There is no "//" in elements that are not empty, hold no separator and
are each followed by one. -/
theorem index_of_sub_slashes_terminated (es : List Str)
    (hes : ∀ e ∈ es, e ≠ [] ∧ '/' ∉ e) :
    index_of_sub ['/', '/'] (slash_terminated es) = none := by
  induction es with
  | nil => rfl
  | cons e es' ih =>
    have ih' := ih (fun m hm => hes m (List.mem_cons_of_mem _ hm))
    rw [slash_terminated_cons]
    apply index_of_sub_slashes_append e _ (hes e (List.mem_cons_self _ _)).2
    cases es' with
    | nil => rfl
    | cons e2 es'' =>
      have he2 := hes e2 (List.mem_cons_of_mem _ (List.mem_cons_self _ _))
      rw [slash_terminated_cons] at ih' ⊢
      cases he2n : e2 with
      | nil => exact absurd he2n he2.1
      | cons x t =>
        have hx : x ≠ '/' := by
          have := he2.2
          rw [he2n] at this
          simp only [List.mem_cons, not_or] at this
          exact fun e => this.1 e.symm
        rw [he2n] at ih'
        rw [List.cons_append, index_of_sub_slashes_cons_cons x _ hx]
        rw [List.cons_append] at ih'
        rw [ih']
        rfl

/-- A character of the text is a separator or a character of an element. -/
theorem mem_slash_terminated (c : Char) (es : List Str) (h : c ∈ slash_terminated es) :
    c = '/' ∨ ∃ e ∈ es, c ∈ e := by
  induction es with
  | nil => simp [slash_terminated] at h
  | cons e es' ih =>
    rw [slash_terminated_cons] at h
    simp only [List.mem_append, List.mem_cons] at h
    rcases h with h | h | h
    · exact Or.inr ⟨e, List.mem_cons_self _ _, h⟩
    · exact Or.inl h
    · rcases ih h with h | ⟨m, hm, hc⟩
      · exact Or.inl h
      · exact Or.inr ⟨m, List.mem_cons_of_mem _ hm, hc⟩

/-- Elements without a `$` and without `(`, validated one by one, pass the
validation loop, and conversely. -/
theorem validate_elems_none (es : List Str) :
    validate_elems es = none ↔ ∀ e ∈ es, validate_elem e = none := by
  induction es with
  | nil => simp [validate_elems]
  | cons e es' ih =>
    simp only [validate_elems, List.mem_cons, forall_eq_or_imp]
    cases he : validate_elem e with
    | none => simpa using ih
    | some err => simp

/-- The part of `initialize` after the root classification, when the root
element and the split elements pass the validation, hold no "." and leave
nothing for `remove_double_elipses` to erase: they are the elements of the
result. -/
theorem initialize_rest_stable (p0 : basic_path) (path_ : Str) (k : Nat) (es : List Str)
    (hsplit : p0.path_elems ++ split_elems [] (path_.drop k) = es)
    (hval : ∀ e ∈ es, validate_elem e = none)
    (hdot : ∀ e ∈ es, e ≠ ['.'])
    (hne : es.drop (if (p0.drive_specified || p0.unc_path || !p0.relative) = true then 1 else 0)
      ≠ [])
    (hscan : rde_scan
      (es.drop (if (p0.drive_specified || p0.unc_path || !p0.relative) = true then 1 else 0))
        = none) :
    initialize_rest p0 path_ k = .returns { p0 with path_elems := es } := by
  have hfilter : es.filter (· ≠ ['.']) = es := by
    rw [List.filter_eq_self]
    intro e he
    simpa using hdot e he
  have hlen : es.length ≠ 0 := by
    intro h0
    rw [List.length_eq_zero] at h0
    rw [h0] at hne
    simp at hne
  have hpass : rde_pass ⟨es, p0.relative, p0.drive_specified, p0.unc_path⟩
      = (⟨es, p0.relative, p0.drive_specified, p0.unc_path⟩, true) := by
    unfold rde_pass
    simp only
    cases hd : es.drop
        (if (p0.drive_specified || p0.unc_path || !p0.relative) = true then 1 else 0) with
    | nil => exact absurd hd hne
    | cons x xs =>
      rw [hd] at hscan
      simp only [hscan]
  unfold initialize_rest
  simp only [hsplit, (validate_elems_none es).mpr hval, hfilter, hlen, if_false]
  unfold remove_double_elipses
  simp [rde_loop, hpass]

/-! ## The branches of `initialize` for an absolute and for a relative text -/

/-- The branch of `initialize` for a text that begins with one separator,
holds no backslash and no "//". -/
theorem initialize_path_abs_branch (x : Char) (rest : Str) (hx : x ≠ '/')
    (hback : '\\' ∉ x :: rest) (hdbl : index_of_sub ['/', '/'] (x :: rest) = none) :
    initialize_path ('/' :: x :: rest)
      = initialize_rest ⟨[['/']], false, false, false⟩ ('/' :: x :: rest) 1 := by
  have hm : ('/' :: x :: rest).map (fun c => if c = '\\' then '/' else c)
      = '/' :: x :: rest := by
    apply map_backslash_id
    simp only [List.mem_cons, not_or] at hback ⊢
    exact ⟨by decide, hback.1, hback.2⟩
  have h1 : find_str ('/' :: x :: rest) ['/', '/'] 1 = none := by
    simp [find_str, hdbl]
  have h2 := find_str_dots_slash (x :: rest)
  unfold initialize_path
  simp only [hm, h1, h2]
  simp [char_at, hx]

/-- The branch of `initialize` for a text that begins with neither a
separator nor a drive specification, holds no backslash and no "//", and is
not made of dots only. -/
theorem initialize_path_rel_branch (c : Char) (rest : Str) (hc : c ≠ '/')
    (hback : '\\' ∉ c :: rest) (hdbl : index_of_sub ['/', '/'] rest = none)
    (hdots : find_first_not_of '.' (c :: rest) ≠ none)
    (hdrive : char_at (c :: rest) 1 ≠ ':') :
    initialize_path (c :: rest) = initialize_rest ⟨[], true, false, false⟩ (c :: rest) 0 := by
  have hm : (c :: rest).map (fun c => if c = '\\' then '/' else c) = c :: rest :=
    map_backslash_id _ hback
  have h1 : find_str (c :: rest) ['/', '/'] 1 = none := by
    simp [find_str, hdbl]
  unfold initialize_path
  simp only [hm, h1]
  simp [char_at, hc, hdots, hdrive]
  intro _ h
  exact absurd h (by simpa [char_at] using hdrive)

/-! ## A placeholder replaced by an absolute path -/

/-- An absolute text of plain names, each followed by a separator, is
constructed as the path with the root "/" and the names. -/
theorem initialize_path_abs_terminated (x : Str) (xs : List Str) (hx : plain_name x)
    (hxs : ∀ e ∈ xs, plain_name e) :
    initialize_path ('/' :: slash_terminated (x :: xs))
      = .returns ⟨['/'] :: x :: xs, false, false, false⟩ := by
  have hall : ∀ e ∈ x :: xs, plain_name e := by
    intro e he
    rcases List.mem_cons.mp he with rfl | he
    · exact hx
    · exact hxs e he
  have hdbl := index_of_sub_slashes_terminated (x :: xs)
    (fun e he => ⟨plain_name_ne_nil e (hall e he), (hall e he).1⟩)
  have hback : '\\' ∉ slash_terminated (x :: xs) := by
    intro hmem
    rcases mem_slash_terminated _ _ hmem with h | ⟨e, he, hc⟩
    · exact absurd h (by decide)
    · exact (hall e he).2.1 hc
  cases hxn : x with
  | nil => exact absurd hxn (plain_name_ne_nil x hx)
  | cons c t =>
    have hc : c ≠ '/' := by
      have := hx.1
      rw [hxn] at this
      simp only [List.mem_cons, not_or] at this
      exact fun e => this.1 e.symm
    have hst : slash_terminated (x :: xs) = c :: (t ++ '/' :: slash_terminated xs) := by
      rw [slash_terminated_cons, hxn]
      rfl
    rw [← hxn, hst]
    rw [hst] at hdbl hback
    rw [initialize_path_abs_branch c _ hc hback hdbl]
    apply initialize_rest_rooted_plain
    · simp only [List.drop_succ_cons, List.drop_zero, List.singleton_append]
      rw [← hst, split_elems_terminated (x :: xs) (fun e he => (hall e he).1)]
    · intro e he
      rcases List.mem_cons.mp he with rfl | he
      · exact ⟨by decide, by decide⟩
      · exact ⟨(hall e he).2.2.1, (hall e he).2.2.2.1⟩
    · intro e he
      rcases List.mem_cons.mp he with rfl | he
      · decide
      · exact plain_name_ne_dot e (hall e he)
    · exact fun e he => plain_name_ne_dotdot e (hxs e he)
    · rfl

/-- The text "/" `v` for each `v`, followed by a separator, is a separator
followed by each `v` with a separator after it. -/
theorem append_elems_separator (vs : List Str) :
    append_elems vs ++ ['/'] = '/' :: slash_terminated vs := by
  induction vs with
  | nil => rfl
  | cons v vs' ih =>
    rw [slash_terminated_cons]
    show ('/' :: v ++ append_elems vs') ++ ['/'] = _
    rw [List.append_assoc, ih]
    simp

/-- The last character of "/" `v` for each `v` is a character of one of the
`v` when there is a `v` and none is empty. -/
theorem getLastD_append_elems (vs : List Str) (d : Char) (hvs : vs ≠ [])
    (hne : ∀ v ∈ vs, v ≠ []) : ∃ v ∈ vs, (append_elems vs).getLastD d ∈ v := by
  induction vs with
  | nil => exact absurd rfl hvs
  | cons v vs' ih =>
    cases vs' with
    | nil =>
      refine ⟨v, List.mem_cons_self _ _, ?_⟩
      have hv := hne v (List.mem_cons_self _ _)
      show (('/' :: v) ++ append_elems []).getLastD d ∈ v
      simp only [append_elems, List.append_nil]
      cases v with
      | nil => exact absurd rfl hv
      | cons a t =>
        rw [List.getLastD_cons]
        rw [List.getLastD_eq_getLast?]
        have : (a :: t).getLast? = some ((a :: t).getLast (by simp)) :=
          List.getLast?_eq_getLast _ _
        rw [this]
        exact List.getLast_mem _
    | cons w ws =>
      obtain ⟨u, hu, hmem⟩ := ih (by simp) (fun m hm => hne m (List.mem_cons_of_mem _ hm))
      refine ⟨u, List.mem_cons_of_mem _ hu, ?_⟩
      show (('/' :: v) ++ append_elems (w :: ws)).getLastD d ∈ u
      have hnn : append_elems (w :: ws) ≠ [] := by
        show ('/' :: w ++ append_elems ws) ≠ []
        simp
      rw [List.getLastD_eq_getLast?, List.getLast?_append_of_ne_nil _ hnn,
        ← List.getLastD_eq_getLast?]
      exact hmem

/-- The element access into a text that follows another. -/
theorem char_at_append_right (a b : Str) (k : Nat) :
    char_at (a ++ b) (a.length + k) = char_at b k := by
  induction a with
  | nil => simp
  | cons x t ih =>
    simp only [char_at] at ih ⊢
    simp only [List.cons_append, List.length_cons]
    rw [show t.length + 1 + k = (t.length + k) + 1 by omega, List.getD_cons_succ]
    exact ih

/-- The method `get_variable_id` on a placeholder "$(" `N` ")": the name is
`N`. -/
theorem get_variable_id_placeholder (N : Str) :
    get_variable_id ('$' :: '(' :: N ++ [')']) = .returns (some N) := by
  have hlast : char_at ('$' :: '(' :: N ++ [')']) (('$' :: '(' :: N ++ [')']).length - 1)
      = ')' := by
    have := char_at_append_right ('$' :: '(' :: N) [')'] 0
    simp only [List.length_cons, Nat.add_zero] at this
    simp only [List.length_append, List.length_cons, List.length_singleton, List.length_nil,
      Nat.add_sub_cancel]
    rw [List.cons_append, List.cons_append] at this
    rw [List.cons_append, List.cons_append, this]
    rfl
  unfold get_variable_id
  rw [if_pos (by rfl), if_neg]
  · simp [substr]
  · intro h
    rcases h with h | h
    · exact h (by rfl)
    · exact h hlast

/-- The method `get_variable_id` on an element without `$`: it is no
placeholder. -/
theorem get_variable_id_no_dollar (e : Str) (h : '$' ∉ e) :
    get_variable_id e = .returns none := by
  unfold get_variable_id
  rw [if_neg]
  cases e with
  | nil => decide
  | cons c t =>
    simp only [List.mem_cons, not_or] at h
    simpa [char_at] using fun e => h.1 e.symm

/-- The loop of `apply_variables` over elements without `$`: each is
appended with a separator after it. -/
theorem apply_elems_no_dollar (varmap : List (Str × Str)) (acc : Str) (es : List Str)
    (h : ∀ e ∈ es, '$' ∉ e) :
    apply_elems varmap acc es = .returns (acc ++ slash_terminated es) := by
  induction es generalizing acc with
  | nil => simp [apply_elems, slash_terminated]
  | cons e es' ih =>
    rw [apply_elems, apply_elem, get_variable_id_no_dollar e (h e (List.mem_cons_self _ _))]
    simp only [Outcome.bind, Option.bind]
    rw [ih _ (fun m hm => h m (List.mem_cons_of_mem _ hm)), slash_terminated_cons]
    simp

/-- A placeholder "$(" `N` ")" with a name that is not empty and holds no
`$`, `(` and `)` passes the validation. -/
theorem validate_elem_placeholder (N : Str) (hN : N ≠ [])
    (hN' : ∀ c ∈ N, c ≠ '$' ∧ c ≠ '(' ∧ c ≠ ')') :
    validate_elem ('$' :: '(' :: N ++ [')']) = none := by
  have h1 : '$' ∉ N := fun h => (hN' _ h).1 rfl
  have h2 : '(' ∉ N := fun h => (hN' _ h).2.1 rfl
  have h3 : ')' ∉ N := fun h => (hN' _ h).2.2 rfl
  have hlen : 0 < N.length := List.length_pos.mpr hN
  have i1 : index_of '$' (N ++ [')']) = none := by
    apply index_of_not_mem
    simp only [List.mem_append, List.mem_singleton, not_or]
    exact ⟨h1, by decide⟩
  have i2 : index_of '(' (N ++ [')']) = none := by
    apply index_of_not_mem
    simp only [List.mem_append, List.mem_singleton, not_or]
    exact ⟨h2, by decide⟩
  have i3 : index_of ')' (N ++ [')']) = some N.length := index_of_append_cons ')' N [] h3
  unfold validate_elem
  simp only [List.cons_append, index_of, if_true, find_char, List.drop_succ_cons,
    List.drop_zero, List.length_cons, List.length_append, List.length_singleton]
  simp [index_of, i1, i2, i3]
  omega

/-- C24. For a name `N` (not empty, without separator, `$` and
parentheses), plain names `vs`, at least one, and plain names `es`, possibly
none: the raw string "$(" `N` ")" followed by "/" `e` for each `e` is
constructed, and `apply_variables` on it with the mapping of `N` to "/" `v`
for each `v` gives the absolute path with elements "/", then `vs`, then `es`. -/
theorem apply_variables_placeholder (N : Str) (vs es : List Str) (hN : N ≠ [])
    (hN' : ∀ c ∈ N, c ≠ '/' ∧ c ≠ '\\' ∧ c ≠ '$' ∧ c ≠ '(' ∧ c ≠ ')')
    (hvs : vs ≠ []) (hvs' : ∀ v ∈ vs, plain_name v) (hes : ∀ e ∈ es, plain_name e) :
    initialize_path (('$' :: '(' :: N ++ [')']) ++ append_elems es)
        = .returns ⟨('$' :: '(' :: N ++ [')']) :: es, true, false, false⟩ ∧
      apply_variables ⟨('$' :: '(' :: N ++ [')']) :: es, true, false, false⟩
          [(N, append_elems vs)]
        = .returns ⟨['/'] :: (vs ++ es), false, false, false⟩ := by
  have hNs : '/' ∉ N := fun h => (hN' _ h).1 rfl
  have hNb : '\\' ∉ N := fun h => (hN' _ h).2.1 rfl
  have hval := validate_elem_placeholder N hN (fun c hc => (hN' c hc).2.2)
  constructor
  · have hslash : '/' ∉ '(' :: N ++ [')'] := by
      simp only [List.cons_append, List.mem_cons, List.mem_append, List.mem_singleton, not_or]
      exact ⟨by decide, hNs, by decide⟩
    have hback : '\\' ∉ '$' :: (('(' :: N ++ [')']) ++ append_elems es) := by
      simp only [List.cons_append, List.mem_cons, List.mem_append, List.mem_singleton, not_or]
      exact ⟨by decide, by decide, ⟨hNb, by decide⟩,
        not_mem_append_elems _ es (by decide) (fun n hn => (hes n hn).2.1)⟩
    have hdbl : index_of_sub ['/', '/'] (('(' :: N ++ [')']) ++ append_elems es) = none :=
      index_of_sub_slashes_append _ _ hslash (index_of_sub_slashes_append_elems es hes)
    show initialize_path ('$' :: (('(' :: N ++ [')']) ++ append_elems es)) = _
    rw [initialize_path_rel_branch '$' _ (by decide) hback hdbl (by simp [find_first_not_of])
      (by simp [char_at])]
    have hst := initialize_rest_stable ⟨[], true, false, false⟩
      ('$' :: (('(' :: N ++ [')']) ++ append_elems es)) 0 (('$' :: '(' :: N ++ [')']) :: es)
    apply hst
    · simp only [List.nil_append, List.drop_zero]
      have := split_elems_plain es hes [] ('$' :: '(' :: N ++ [')'])
        (by
          simp only [List.cons_append, List.mem_cons, List.mem_append, List.mem_singleton,
            not_or]
          exact ⟨by decide, by decide, hNs, by decide⟩)
        (by simp)
      simpa using this
    · intro e he
      rcases List.mem_cons.mp he with rfl | he
      · exact hval
      · exact validate_elem_plain e (hes e he).2.2.1 (hes e he).2.2.2.1
    · intro e he
      rcases List.mem_cons.mp he with rfl | he
      · simp
      · exact plain_name_ne_dot e (hes e he)
    · simp
    · simpa using rde_scan_none _ es (fun e he => plain_name_ne_dotdot e (hes e he))
  · obtain ⟨u, hu, hmem⟩ := getLastD_append_elems vs (Char.ofNat 0) hvs
      (fun v hv => plain_name_ne_nil v (hvs' v hv))
    have hl1 : (append_elems vs).getLastD (Char.ofNat 0) ≠ '/' :=
      fun h => (hvs' u hu).1 (h ▸ hmem)
    have hl2 : (append_elems vs).getLastD (Char.ofNat 0) ≠ '\\' :=
      fun h => (hvs' u hu).2.1 (h ▸ hmem)
    unfold apply_variables
    simp only [Bool.not_true, Bool.false_eq_true, if_false, List.getD_cons_zero,
      List.drop_succ_cons, List.drop_zero]
    rw [apply_elem, get_variable_id_placeholder]
    simp only [Outcome.bind, Option.bind, varmap_find, List.find?, beq_self_eq_true,
      Option.map_some', List.nil_append, ne_eq, hl1, hl2, not_false_eq_true, and_self, if_true]
    rw [apply_elems_no_dollar _ _ es (fun e he => (hes e he).2.2.1)]
    simp only [Outcome.bind]
    rw [append_elems_separator, List.cons_append, ← slash_terminated_append]
    cases hvn : vs with
    | nil => exact absurd hvn hvs
    | cons v vs' =>
      rw [hvn] at hvs'
      exact initialize_path_abs_terminated v (vs' ++ es) (hvs' v (List.mem_cons_self _ _))
        (fun e he => by
          rcases List.mem_append.mp he with h | h
          · exact hvs' e (List.mem_cons_of_mem _ h)
          · exact hes e h)

/-- C24 at "$(HOME)/bin" with HOME mapped to "/usr/local". -/
theorem apply_variables_placeholder_witness :
    initialize_path "$(HOME)/bin".toList
        = .returns ⟨["$(HOME)".toList, "bin".toList], true, false, false⟩ ∧
      apply_variables ⟨["$(HOME)".toList, "bin".toList], true, false, false⟩
          [("HOME".toList, "/usr/local".toList)]
        = .returns ⟨["/".toList, "usr".toList, "local".toList, "bin".toList],
            false, false, false⟩ :=
  apply_variables_placeholder "HOME".toList ["usr".toList, "local".toList] ["bin".toList]
    (by decide) (by decide) (by decide) (by decide) (by decide)

/-! ## What every constructed path is made of -/

/-- Replacing backslashes leaves none. -/
theorem map_backslash_free (s : Str) :
    '\\' ∉ s.map (fun c => if c = '\\' then '/' else c) := by
  intro h
  rcases List.mem_map.mp h with ⟨c, _, hc⟩
  by_cases hb : c = '\\'
  · rw [if_pos hb] at hc
    exact absurd hc (by decide)
  · rw [if_neg hb] at hc
    exact hb hc

/-- A failed search for a text fails at the first position and further on. -/
theorem index_of_sub_cons_none (pat : Str) (c : Char) (t : Str)
    (h : index_of_sub pat (c :: t) = none) :
    starts_with pat (c :: t) = false ∧ index_of_sub pat t = none := by
  rw [index_of_sub] at h
  split at h
  · cases h
  · next hs =>
    refine ⟨by simpa using hs, ?_⟩
    cases hi : index_of_sub pat t with
    | none => rfl
    | some k => simp [hi] at h

/-- A failed search for a text fails on every final segment. -/
theorem index_of_sub_drop_none (pat : Str) (t : Str) (j : Nat)
    (h : index_of_sub pat t = none) : index_of_sub pat (t.drop j) = none := by
  induction j generalizing t with
  | zero => simpa using h
  | succ j ih =>
    cases t with
    | nil => simpa using h
    | cons c t' =>
      rw [List.drop_succ_cons]
      exact ih t' (index_of_sub_cons_none pat c t' h).2

/-- In a text without "//", a separator is not followed by a separator. -/
theorem head_after_separator (rest : Str)
    (h : index_of_sub ['/', '/'] ('/' :: rest) = none) : rest.head? ≠ some '/' := by
  have h1 := (index_of_sub_cons_none _ _ _ h).1
  intro hh
  cases rest with
  | nil => cases hh
  | cons x t =>
    simp only [List.head?_cons, Option.some.injEq] at hh
    subst hh
    simp [starts_with] at h1

/-- The first character of what is left from position `k` is the character
at `k`. -/
theorem char_at_of_head_drop (s : Str) (k : Nat) (c : Char)
    (h : (s.drop k).head? = some c) : char_at s k = c ∧ k < s.length := by
  induction k generalizing s with
  | zero =>
    cases s with
    | nil => cases h
    | cons x t =>
      simp only [List.drop_zero, List.head?_cons, Option.some.injEq] at h
      simp [char_at, h]
  | succ k ih =>
    cases s with
    | nil => simp at h
    | cons x t =>
      rw [List.drop_succ_cons] at h
      obtain ⟨h1, h2⟩ := ih t h
      simp only [char_at, List.getD_cons_succ, List.length_cons] at h1 ⊢
      exact ⟨h1, by omega⟩

/-- What is left from a position inside the text begins with the character
at that position. -/
theorem drop_eq_char_at_cons (s : Str) (k : Nat) (h : k < s.length) :
    s.drop k = char_at s k :: s.drop (k + 1) := by
  induction k generalizing s with
  | zero =>
    cases s with
    | nil => simp at h
    | cons x t => simp [char_at]
  | succ k ih =>
    cases s with
    | nil => simp at h
    | cons x t =>
      simp only [List.length_cons] at h
      simp only [List.drop_succ_cons, char_at, List.getD_cons_succ]
      exact ih t (by omega)

/-- A successful search for a character gives a position, not before the
start, that holds the character. -/
theorem find_char_some (s : Str) (c : Char) (pos k : Nat) (h : find_char s c pos = some k) :
    pos ≤ k ∧ k < s.length ∧ char_at s k = c := by
  have hidx : ∀ (t : Str) (j : Nat), index_of c t = some j →
      j < t.length ∧ char_at t j = c := by
    intro t
    induction t with
    | nil => intro j hj; simp [index_of] at hj
    | cons x t' ih =>
      intro j hj
      rw [index_of] at hj
      split at hj
      · next hx =>
        cases hj
        simp [char_at, hx]
      · cases hi : index_of c t' with
        | none => simp [hi] at hj
        | some m =>
          simp only [hi, Option.map_some', Option.some.injEq] at hj
          subst hj
          obtain ⟨h1, h2⟩ := ih m hi
          simp only [char_at, List.getD_cons_succ, List.length_cons] at h2 ⊢
          exact ⟨by omega, h2⟩
  unfold find_char at h
  cases hi : index_of c (s.drop pos) with
  | none => simp [hi] at h
  | some j =>
    simp only [hi, Option.map_some', Option.some.injEq] at h
    subst h
    obtain ⟨h1, h2⟩ := hidx _ j hi
    simp only [List.length_drop] at h1
    refine ⟨by omega, by omega, ?_⟩
    simp only [char_at] at h2 ⊢
    rw [← h2, List.getD_eq_getElem?_getD, List.getD_eq_getElem?_getD, List.getElem?_drop]
    rw [Nat.add_comm]

/-- An element that the split loop gives holds no separator, and only
characters of the text read. -/
theorem split_elems_chars (t cur : Str) (e : Str) (he : e ∈ split_elems cur t)
    (hcur : '/' ∉ cur) : '/' ∉ e ∧ ∀ c ∈ e, c ∈ cur ∨ c ∈ t := by
  induction t generalizing cur with
  | nil =>
    rw [split_elems] at he
    split at he
    · cases he
    · simp only [List.mem_singleton] at he
      subst he
      exact ⟨hcur, fun c hc => Or.inl hc⟩
  | cons x rest ih =>
    rw [split_elems] at he
    split at he
    · rcases List.mem_cons.mp he with rfl | he
      · exact ⟨hcur, fun c hc => Or.inl hc⟩
      · obtain ⟨h1, h2⟩ := ih [] he (by simp)
        refine ⟨h1, fun c hc => ?_⟩
        rcases h2 c hc with h | h
        · cases h
        · exact Or.inr (List.mem_cons_of_mem _ h)
    · next hx =>
      obtain ⟨h1, h2⟩ := ih (cur ++ [x]) he (by
        simp only [List.mem_append, List.mem_singleton, not_or]
        exact ⟨hcur, fun e => hx e.symm⟩)
      refine ⟨h1, fun c hc => ?_⟩
      rcases h2 c hc with h | h
      · rcases List.mem_append.mp h with h | h
        · exact Or.inl h
        · simp only [List.mem_singleton] at h
          exact Or.inr (h ▸ List.mem_cons_self _ _)
      · exact Or.inr (List.mem_cons_of_mem _ h)

/-- An element that the split loop gives is not empty, when the text read
holds no "//" and does not begin with a separator. -/
theorem split_elems_ne_nil (t cur : Str) (e : Str) (he : e ∈ split_elems cur t)
    (hstart : cur ≠ [] ∨ t.head? ≠ some '/')
    (hdbl : index_of_sub ['/', '/'] t = none) : e ≠ [] := by
  induction t generalizing cur with
  | nil =>
    rw [split_elems] at he
    split at he
    · cases he
    · next hc =>
      simp only [List.mem_singleton] at he
      subst he
      simpa using hc
  | cons x rest ih =>
    obtain ⟨_, hrest⟩ := index_of_sub_cons_none _ _ _ hdbl
    rw [split_elems] at he
    split at he
    · next hx =>
      subst hx
      rcases List.mem_cons.mp he with rfl | he
      · rcases hstart with h | h
        · exact h
        · simp at h
      · exact ih [] he (Or.inr (head_after_separator rest hdbl)) hrest
    · exact ih (cur ++ [x]) he (Or.inl (by simp)) hrest

/-- An iteration that sets `isDone` scanned to the end without an erase. -/
theorem rde_pass_done_scan (p q : basic_path) (h : rde_pass p = (q, true)) :
    q = p ∧ rde_scan (p.path_elems.drop
      (if (p.drive_specified || p.unc_path || !p.relative) = true then 1 else 0)) = none := by
  unfold rde_pass at h
  simp only at h
  generalize (if (p.drive_specified || p.unc_path || !p.relative) = true then 1 else 0)
    = skip at h ⊢
  cases hd : p.path_elems.drop skip with
  | nil => simp [hd] at h
  | cons x xs =>
    simp only [hd] at h
    cases hs : rde_scan (x :: xs) with
    | none =>
      simp only [hs, Prod.mk.injEq, and_true] at h
      exact ⟨h.symm, rfl⟩
    | some l => simp [hs] at h

/-- When `remove_double_elipses` ends, a scan of the result finds nothing to
erase. -/
theorem rde_loop_normal (n : Nat) (p q : basic_path) (h : rde_loop n p = some q) :
    rde_scan (q.path_elems.drop
      (if (p.drive_specified || p.unc_path || !p.relative) = true then 1 else 0)) = none := by
  induction n generalizing p with
  | zero => simp [rde_loop] at h
  | succ n ih =>
    simp only [rde_loop] at h
    split at h
    · next r hr =>
      cases h
      obtain ⟨h1, h2⟩ := rde_pass_done_scan p _ hr
      rw [h1]
      exact h2
    · next r hr =>
      obtain ⟨f1, f2, f3, _⟩ := rde_pass_spec p r false hr
      have := ih r h
      rw [f1, f2, f3] at this
      exact this

/-- What the part of `initialize` after the root classification returns,
when the text holds no backslash and, from `searchIndex` on, no "//" and no
separator at the start: every element passed the validation; the elements
after the root position are not empty and hold neither separator nor
backslash; a scan finds nothing to erase; and behind a root no element is
".". -/
theorem initialize_rest_elems (p0 q : basic_path) (path_ : Str) (k : Nat)
    (h : initialize_rest p0 path_ k = .returns q)
    (hback : '\\' ∉ path_)
    (hdbl : index_of_sub ['/', '/'] (path_.drop k) = none)
    (hhead : (path_.drop k).head? ≠ some '/')
    (hroot : p0.path_elems.length
      = (if (p0.drive_specified || p0.unc_path || !p0.relative) = true then 1 else 0))
    (hdot : ['.'] ∉ p0.path_elems) :
    q.relative = p0.relative ∧ q.drive_specified = p0.drive_specified ∧
    q.unc_path = p0.unc_path ∧
    (∀ e ∈ q.path_elems, validate_elem e = none) ∧
    (∀ e ∈ q.path_elems.drop
        (if (p0.drive_specified || p0.unc_path || !p0.relative) = true then 1 else 0),
      e ≠ [] ∧ '/' ∉ e ∧ '\\' ∉ e) ∧
    rde_scan (q.path_elems.drop
      (if (p0.drive_specified || p0.unc_path || !p0.relative) = true then 1 else 0)) = none ∧
    ((p0.drive_specified || p0.unc_path || !p0.relative) = true →
      ∀ e ∈ q.path_elems.drop 1, e ≠ ['.']) := by
  have hsplit : ∀ e ∈ split_elems [] (path_.drop k), e ≠ [] ∧ '/' ∉ e ∧ '\\' ∉ e := by
    intro e he
    obtain ⟨h1, h2⟩ := split_elems_chars _ [] e he (by simp)
    refine ⟨split_elems_ne_nil _ [] e he (Or.inr hhead) hdbl, h1, fun hb => ?_⟩
    rcases h2 _ hb with h | h
    · cases h
    · exact hback (List.mem_of_mem_drop h)
  unfold initialize_rest at h
  simp only at h
  cases hv : validate_elems (p0.path_elems ++ split_elems [] (path_.drop k)) with
  | some err => simp [hv] at h
  | none =>
    simp only [hv] at h
    have hval := (validate_elems_none _).mp hv
    split at h
    · next r hr =>
      cases h
      unfold remove_double_elipses at hr
      obtain ⟨f1, f2, f3, hsub, _, _⟩ := rde_loop_spec _ _ _ hr
      have hnorm := rde_loop_normal _ _ _ hr
      simp only at f1 f2 f3 hsub hnorm
      generalize hsk :
        (if (p0.drive_specified || p0.unc_path || !p0.relative) = true then 1 else 0) = skip
        at hroot hnorm ⊢
      have hstart : ∀ e ∈ (if ((p0.path_elems ++ split_elems [] (path_.drop k)).filter
            (· ≠ ['.'])).length = 0 then [['.']]
          else (p0.path_elems ++ split_elems [] (path_.drop k)).filter (· ≠ ['.'])),
          validate_elem e = none := by
        intro e he
        split at he
        · simp only [List.mem_singleton] at he
          subst he
          decide
        · exact hval e (List.mem_of_mem_filter he)
      have hdrop : ∀ e ∈ (if ((p0.path_elems ++ split_elems [] (path_.drop k)).filter
            (· ≠ ['.'])).length = 0 then [['.']]
          else (p0.path_elems ++ split_elems [] (path_.drop k)).filter (· ≠ ['.'])).drop skip,
          (e ≠ [] ∧ '/' ∉ e ∧ '\\' ∉ e) ∧ (skip = 1 → e ≠ ['.']) := by
        intro e he
        split at he
        · have he' := List.mem_of_mem_drop he
          simp only [List.mem_singleton] at he'
          subst he'
          refine ⟨by decide, fun h1 => ?_⟩
          subst h1
          simp at he
        · rw [List.filter_append] at he
          have hlen : (p0.path_elems.filter (· ≠ ['.'])).length = skip := by
            rw [List.filter_eq_self.mpr]
            · exact hroot
            · intro a ha
              simpa using fun (e : a = ['.']) => hdot (e ▸ ha)
          rw [List.drop_append_of_le_length (by omega), List.drop_of_length_le (by omega),
            List.nil_append] at he
          have hmem := List.mem_of_mem_filter he
          have hpe := List.of_mem_filter he
          exact ⟨hsplit e hmem, fun _ => by simpa using hpe⟩
      refine ⟨f1, f2, f3, fun e he => hstart e (hsub.subset he), ?_, hnorm, ?_⟩
      · intro e he
        exact (hdrop e ((hsub.drop skip).subset he)).1
      · intro hr1 e he
        rw [if_pos hr1] at hsk
        subst hsk
        exact (hdrop e ((hsub.drop 1).subset he)).2 rfl
    · cases h

/-- The ways in which `initialize` returns, with the text that the split
loop reads: through one of its two early exits, with one element and not
relative, or through the part after the root classification, entered with at
most a root element that is not ".", on a text that from `searchIndex` on
holds no "//" and does not begin with a separator. -/
theorem initialize_path_returns_rest (s : Str) (p : basic_path)
    (h : initialize_path s = .returns p) :
    (p.path_elems.length = 1 ∧ p.relative = false) ∨
    ∃ (p0 : basic_path) (k : Nat),
      initialize_rest p0 (s.map fun c => if c = '\\' then '/' else c) k = .returns p ∧
      index_of_sub ['/', '/'] ((s.map fun c => if c = '\\' then '/' else c).drop k) = none ∧
      ((s.map fun c => if c = '\\' then '/' else c).drop k).head? ≠ some '/' ∧
      p0.path_elems.length
        = (if (p0.drive_specified || p0.unc_path || !p0.relative) = true then 1 else 0) ∧
      ['.'] ∉ p0.path_elems := by
  unfold initialize_path at h
  split at h
  · cases h
  · simp only at h
    generalize (s.map fun c => if c = '\\' then '/' else c) = P at h ⊢
    split at h
    · cases h
    · next hdbl0 =>
      have hd1 : index_of_sub ['/', '/'] (P.drop 1) = none := by
        have hf : find_str P ['/', '/'] 1 = none := by
          by_contra hc
          exact hdbl0 hc
        unfold find_str at hf
        split at hf
        · next hl =>
          have : P = [] := List.length_eq_zero.mp (by omega)
          subst this
          rfl
        · cases hi : index_of_sub ['/', '/'] (P.drop 1) with
          | none => rfl
          | some j =>
            rw [hi] at hf
            cases hf
      have hdk : ∀ j, index_of_sub ['/', '/'] (P.drop (j + 1)) = none := by
        intro j
        have := index_of_sub_drop_none _ _ j hd1
        rwa [List.drop_drop, Nat.add_comm] at this
      have hsep : ∀ j, j + 1 < P.length → char_at P (j + 1) = '/' →
          (P.drop (j + 2)).head? ≠ some '/' := by
        intro j hj hc
        have h1 := hdk j
        rw [drop_eq_char_at_cons P (j + 1) hj, hc] at h1
        exact head_after_separator _ h1
      split at h
      · cases h
      · split at h
        · next h0 =>
          split at h
          · cases h
            exact Or.inl ⟨rfl, rfl⟩
          · split at h
            · cases hnd : find_char P '/' 2 with
              | none =>
                simp only [hnd] at h
                cases h
                exact Or.inl ⟨rfl, rfl⟩
              | some nd =>
                simp only [hnd] at h
                obtain ⟨hn1, hn2, hn3⟩ := find_char_some P '/' 2 nd hnd
                right
                refine ⟨_, _, h, ?_, ?_, rfl, ?_⟩
                · have := hdk nd
                  exact this
                · obtain ⟨j, rfl⟩ : ∃ j, nd = j + 1 := ⟨nd - 1, by omega⟩
                  exact hsep j hn2 hn3
                · simp only [List.mem_singleton]
                  intro heq
                  have hl := congrArg List.length heq
                  simp only [substr, List.drop_zero, List.length_take, List.length_singleton]
                    at hl
                  omega
            · next h1 =>
              right
              refine ⟨_, _, h, hd1, ?_, rfl, by simp⟩
              intro hh
              exact h1 (char_at_of_head_drop P 1 _ hh).1
        · next h0 =>
          split at h
          · next hd =>
            have hne : ∀ m, 2 ≤ m → ['.'] ≠ substr P 0 m := by
              intro m hm heq
              have hl := congrArg List.length heq
              simp only [substr, List.drop_zero, List.length_take, List.length_singleton]
                at hl
              have := hd.1
              omega
            split at h
            · next h3 =>
              right
              refine ⟨_, _, h, hdk 2, ?_, rfl, ?_⟩
              · exact hsep 1 (by omega) h3.2
              · simp only [List.mem_singleton]
                exact hne 3 (by omega)
            · next h3 =>
              right
              refine ⟨_, _, h, hdk 1, ?_, rfl, ?_⟩
              · intro hh
                obtain ⟨c1, c2⟩ := char_at_of_head_drop P 2 _ hh
                exact h3 ⟨by omega, c1⟩
              · simp only [List.mem_singleton]
                exact hne 2 (by omega)
          · right
            refine ⟨_, _, h, ?_, ?_, rfl, by simp⟩
            · cases hP : P with
              | nil => rfl
              | cons c rest =>
                have hc : c ≠ '/' := by
                  intro e
                  apply h0
                  simp [hP, char_at, e]
                rw [List.drop_zero, index_of_sub_slashes_cons c rest hc]
                have := hd1
                rw [hP] at this
                simp only [List.drop_succ_cons, List.drop_zero] at this
                rw [this]
                rfl
            · intro hh
              exact h0 (char_at_of_head_drop P 0 _ hh).1

/-! ## `apply_variables` and the assertion of `get_variable_id` -/

/-- A position found by the search for a character holds that character. -/
theorem index_of_char_at (c : Char) (e : Str) (k : Nat) (h : index_of c e = some k) :
    char_at e k = c := by
  have := find_char_some e c 0 k (by simpa [find_char] using h)
  exact this.2.2

/-- An element that passed the validation and begins with `$` has at least
four characters, `(` as the second and `)` as the last. -/
theorem validate_elem_dollar (e : Str) (hv : validate_elem e = none)
    (hd : char_at e 0 = '$') :
    4 ≤ e.length ∧ char_at e 1 = '(' ∧ char_at e (e.length - 1) = ')' := by
  cases e with
  | nil => exact absurd hd (by decide)
  | cons c t =>
    have hc : c = '$' := by simpa [char_at] using hd
    subst hc
    have hidx : index_of '$' ('$' :: t) = some 0 := by simp [index_of]
    unfold validate_elem at hv
    simp only [hidx] at hv
    split at hv
    · cases hv
    · next hcond =>
      simp only [not_or, not_not, not_lt] at hcond
      obtain ⟨_, h1, _, h3, _, h5⟩ := hcond
      exact ⟨h1, index_of_char_at '(' _ 1 h3, index_of_char_at ')' _ _ h5⟩

/-- The text without its first two characters and its last one, as `substr`
gives it. -/
theorem substr_name (e : Str) : substr e 2 (e.length - 3) = (e.drop 2).dropLast := by
  rw [substr, List.dropLast_eq_take, List.length_drop]
  rfl

/-- The method `get_variable_id` on an element that passed the validation:
it does not throw; on an element that begins with `$` it gives the element
without its first two characters and its last one. -/
theorem get_variable_id_validated (e : Str) (hv : validate_elem e = none) :
    get_variable_id e
      = if char_at e 0 = '$' then .returns (some ((e.drop 2).dropLast)) else .returns none := by
  unfold get_variable_id
  split
  · next hd =>
    obtain ⟨_, h2, h3⟩ := validate_elem_dollar e hv hd
    rw [if_neg (by simp [h2, h3]), substr_name]
  · rfl

/-- The loop of `apply_variables` over elements that passed the validation
returns. -/
theorem apply_elems_validated (varmap : List (Str × Str)) (acc : Str) (es : List Str)
    (h : ∀ e ∈ es, validate_elem e = none) : ∃ r, apply_elems varmap acc es = .returns r := by
  induction es generalizing acc with
  | nil => exact ⟨acc, rfl⟩
  | cons e es' ih =>
    have he := get_variable_id_validated e (h e (List.mem_cons_self _ _))
    have hstep : ∃ r, apply_elem varmap acc e = .returns r := by
      unfold apply_elem
      rw [he]
      split
      · simp only [Outcome.bind]
        split
        · exact ⟨_, rfl⟩
        · exact ⟨_, rfl⟩
      · simp only [Outcome.bind, Option.bind]
        exact ⟨_, rfl⟩
    obtain ⟨r, hr⟩ := hstep
    rw [apply_elems, hr]
    simp only [Outcome.bind]
    exact ih r (fun m hm => h m (List.mem_cons_of_mem _ hm))

/-- The validation loop throws one of its two errors only. -/
theorem validate_elems_error (es : List Str) (err : filesystem_error)
    (h : validate_elems es = some err) : err = .dollar_format ∨ err = .parentheses_format := by
  induction es with
  | nil => simp [validate_elems] at h
  | cons e es' ih =>
    rw [validate_elems] at h
    cases hv : validate_elem e with
    | none =>
      simp only [hv] at h
      exact ih h
    | some err' =>
      simp only [hv, Option.some.injEq] at h
      subst h
      unfold validate_elem at hv
      split at hv
      · split at hv
        · cases hv
          exact Or.inl rfl
        · cases hv
      · split at hv
        · cases hv
          exact Or.inr rfl
        · cases hv

/-- The part of `initialize` after the root classification does not throw
"Assertion failure". -/
theorem initialize_rest_ne_assertion (p0 : basic_path) (path_ : Str) (k : Nat) :
    initialize_rest p0 path_ k ≠ .throws .assertion_failure := by
  unfold initialize_rest
  simp only
  cases hv : validate_elems (p0.path_elems ++ split_elems [] (path_.drop k)) with
  | some err =>
    simp only
    rcases validate_elems_error _ err hv with rfl | rfl
    · simp
    · simp
  | none =>
    simp only
    split
    · simp
    · simp

/-- The construction from a raw string does not throw "Assertion failure". -/
theorem initialize_path_ne_assertion (s : Str) :
    initialize_path s ≠ .throws .assertion_failure := by
  unfold initialize_path
  split
  · simp
  · simp only
    split
    · simp
    · split
      · simp
      · split
        · split
          · simp
          · split
            · cases find_char (s.map fun c => if c = '\\' then '/' else c) '/' 2 with
              | none => simp
              | some nd => exact initialize_rest_ne_assertion _ _ _
            · exact initialize_rest_ne_assertion _ _ _
        · split
          · split
            · exact initialize_rest_ne_assertion _ _ _
            · exact initialize_rest_ne_assertion _ _ _
          · exact initialize_rest_ne_assertion _ _ _

/-- The elements that `apply_variables` hands to `get_variable_id`, all of
them for a relative path and those after the first otherwise, passed the
validation when the path was constructed from a raw string. -/
theorem initialize_path_inspected_validated (s : Str) (p : basic_path)
    (h : initialize_path s = .returns p) :
    ∀ e ∈ (if p.relative = true then p.path_elems else p.path_elems.drop 1),
      validate_elem e = none := by
  rcases initialize_path_returns_rest s p h with ⟨h1, h2⟩ | ⟨p0, k, hr, hdbl, hhead, hroot, hdot⟩
  · intro e he
    rw [h2] at he
    simp only [Bool.false_eq_true, if_false] at he
    rw [List.drop_of_length_le (by omega)] at he
    cases he
  · obtain ⟨_, _, _, hval, _⟩ :=
      initialize_rest_elems p0 p _ k hr (map_backslash_free s) hdbl hhead hroot hdot
    intro e he
    split at he
    · exact hval e he
    · exact hval e (List.mem_of_mem_drop he)

/-- C29. For a path constructed from a raw string and any mapping,
`apply_variables` does not reach the "Assertion failure" of
`get_variable_id`: every element it inspects that begins with `$` has `(` as
its second character and `)` as its last, `get_variable_id` returns for it
the element without its first two characters and its last one, and the call
of `apply_variables` does not throw "Assertion failure". -/
theorem apply_variables_no_assertion (s : Str) (p : basic_path)
    (h : initialize_path s = .returns p) (m : List (Str × Str)) :
    (∀ e ∈ (if p.relative = true then p.path_elems else p.path_elems.drop 1),
      char_at e 0 = '$' →
        char_at e 1 = '(' ∧ char_at e (e.length - 1) = ')' ∧
        get_variable_id e = .returns (some ((e.drop 2).dropLast))) ∧
    apply_variables p m ≠ .throws .assertion_failure := by
  have hval := initialize_path_inspected_validated s p h
  constructor
  · intro e he hd
    have hv := hval e he
    obtain ⟨_, h2, h3⟩ := validate_elem_dollar e hv hd
    refine ⟨h2, h3, ?_⟩
    rw [get_variable_id_validated e hv, if_pos hd]
  · have hne : p.path_elems ≠ [] := by
      rcases initialize_path_returns_cases s p h with
        ⟨he, _⟩ | ⟨p0, path_, k, n, _, _, _, _, _, hn⟩
      · simp [he]
      · exact (rde_loop_spec n _ p hn).2.2.2.2.1
    obtain ⟨x, xs, hx⟩ : ∃ x xs, p.path_elems = x :: xs := by
      cases hp : p.path_elems with
      | nil => exact absurd hp hne
      | cons x xs => exact ⟨x, xs, rfl⟩
    have htail : ∀ e ∈ xs, validate_elem e = none := by
      intro e he
      apply hval e
      split
      · rw [hx]
        exact List.mem_cons_of_mem _ he
      · rw [hx]
        simpa using he
    have hfirst : ∃ r, (if (!p.relative) = true then Outcome.returns (p.path_elems.getD 0 [])
        else apply_elem m [] (p.path_elems.getD 0 [])) = .returns r := by
      split
      · exact ⟨_, rfl⟩
      · next hrel =>
        have hrel' : p.relative = true := by simpa using hrel
        have := apply_elems_validated m [] [x] (by
          intro e he
          simp only [List.mem_singleton] at he
          subst he
          apply hval
          rw [if_pos hrel', hx]
          exact List.mem_cons_self _ _)
        obtain ⟨r, hr⟩ := this
        rw [hx]
        simp only [List.getD_cons_zero]
        cases ha : apply_elem m [] x with
        | returns a => exact ⟨a, rfl⟩
        | throws err => simp [apply_elems, ha, Outcome.bind] at hr
        | hangs => simp [apply_elems, ha, Outcome.bind] at hr
    obtain ⟨r, hr⟩ := hfirst
    obtain ⟨r2, hr2⟩ := apply_elems_validated m r xs htail
    rw [hx] at hr
    unfold apply_variables
    simp only [hx, hr, Outcome.bind, List.drop_succ_cons, List.drop_zero, hr2]
    exact initialize_path_ne_assertion r2

/-- C29 at the path of "$(HOME)/bin" with HOME mapped to "/usr/local". -/
theorem apply_variables_no_assertion_witness :
    initialize_path "$(HOME)/bin".toList
        = .returns ⟨["$(HOME)".toList, "bin".toList], true, false, false⟩ ∧
      get_variable_id "$(HOME)".toList = .returns (some "HOME".toList) ∧
      apply_variables ⟨["$(HOME)".toList, "bin".toList], true, false, false⟩
          [("HOME".toList, "/usr/local".toList)] ≠ .throws .assertion_failure :=
  ⟨by decide, by decide,
    (apply_variables_no_assertion "$(HOME)/bin".toList _ (by decide)
      [("HOME".toList, "/usr/local".toList)]).2⟩

/-! ## `from` between two paths that diverge -/

/-- A scan that finds nothing to erase finds nothing after the first
element either. -/
theorem rde_scan_tail_none (x : Str) (l : List Str) (h : rde_scan (x :: l) = none) :
    rde_scan l = none := by
  cases l with
  | nil => rfl
  | cons y t =>
    rw [rde_scan] at h
    split at h
    · cases h
    · cases hs : rde_scan (y :: t) with
      | none => rfl
      | some r => simp [hs] at h

/-- A scan that finds nothing to erase finds nothing on a final segment. -/
theorem rde_scan_drop_none (l : List Str) (j : Nat) (h : rde_scan l = none) :
    rde_scan (l.drop j) = none := by
  induction j generalizing l with
  | zero => simpa using h
  | succ j ih =>
    cases l with
    | nil => simpa using h
    | cons x t =>
      rw [List.drop_succ_cons]
      exact ih t (rde_scan_tail_none x t h)

/-- A ".." put in front of a list in which a scan finds nothing to erase
gives such a list again. -/
theorem rde_scan_dotdot_cons (l : List Str) (h : rde_scan l = none) :
    rde_scan (doubleElipses :: l) = none := by
  cases l with
  | nil => rfl
  | cons y t =>
    rw [rde_scan, if_neg (by simp), h]
    rfl

/-- Several ".." put in front of a list in which a scan finds nothing to
erase give such a list again. -/
theorem rde_scan_replicate_dotdot (k : Nat) (l : List Str) (h : rde_scan l = none) :
    rde_scan (List.replicate k doubleElipses ++ l) = none := by
  induction k with
  | zero => simpa using h
  | succ k ih =>
    rw [List.replicate_succ, List.cons_append]
    exact rde_scan_dotdot_cons _ ih

/-- The text "../" written `k` times is `k` elements ".." each followed by a
separator. -/
theorem flatten_replicate_dotdot (k : Nat) :
    (List.replicate k ['.', '.', '/']).flatten
      = slash_terminated (List.replicate k doubleElipses) := by
  induction k with
  | zero => rfl
  | succ k ih =>
    rw [List.replicate_succ, List.replicate_succ, List.flatten_cons, ih, slash_terminated_cons]
    rfl

/-- A relative text that begins with "../", made of elements each followed
by a separator, is constructed as the relative path with these elements,
when the elements are not empty, hold no separator and no backslash, passed
the validation, are not "." and leave nothing to erase. -/
theorem initialize_path_rel_terminated (es : List Str)
    (hes : ∀ e ∈ es, e ≠ [] ∧ '/' ∉ e ∧ '\\' ∉ e ∧ validate_elem e = none ∧ e ≠ ['.'])
    (hscan : rde_scan (doubleElipses :: es) = none) :
    initialize_path (slash_terminated (doubleElipses :: es))
      = .returns ⟨doubleElipses :: es, true, false, false⟩ := by
  have hall : ∀ e ∈ doubleElipses :: es,
      e ≠ [] ∧ '/' ∉ e ∧ '\\' ∉ e ∧ validate_elem e = none ∧ e ≠ ['.'] := by
    intro e he
    rcases List.mem_cons.mp he with rfl | he
    · decide
    · exact hes e he
  have hdbl := index_of_sub_slashes_terminated (doubleElipses :: es)
    (fun e he => ⟨(hall e he).1, (hall e he).2.1⟩)
  have hback : '\\' ∉ slash_terminated (doubleElipses :: es) := by
    intro hmem
    rcases mem_slash_terminated _ _ hmem with h | ⟨e, he, hc⟩
    · exact absurd h (by decide)
    · exact (hall e he).2.2.1 hc
  have hst : slash_terminated (doubleElipses :: es)
      = '.' :: ('.' :: '/' :: slash_terminated es) := by
    rw [slash_terminated_cons]
    rfl
  have hsplit := split_elems_terminated (doubleElipses :: es) (fun e he => (hall e he).2.1)
  rw [hst] at hdbl hback hsplit ⊢
  rw [initialize_path_rel_branch '.' _ (by decide) hback
    (index_of_sub_cons_none _ _ _ hdbl).2 (by simp [find_first_not_of]) (by simp [char_at])]
  have := initialize_rest_stable ⟨[], true, false, false⟩
    ('.' :: ('.' :: '/' :: slash_terminated es)) 0 (doubleElipses :: es)
  apply this
  · simpa using hsplit
  · exact fun e he => (hall e he).2.2.2.1
  · exact fun e he => (hall e he).2.2.2.2
  · simp
  · simpa using hscan

/-- The loop of `from` that looks for the first difference finds it. -/
theorem find_range_first (n s d : Nat) (P : Nat → Bool) (hs : s ≤ d) (hd : d < s + n)
    (hP : P d = true) (hbefore : ∀ j, s ≤ j → j < d → P j = false) :
    (List.range' s n).find? P = some d := by
  induction n generalizing s with
  | zero => omega
  | succ n ih =>
    rw [List.range'_succ, List.find?_cons]
    by_cases hsd : s = d
    · subst hsd
      rw [hP]
    · rw [hbefore s (le_refl _) (by omega)]
      exact ih (s + 1) (by omega) (by omega) (fun j h1 h2 => hbefore j (by omega) h2)

/-- The index at which `from` finds the first difference, when the elements
agree before `d` and differ at `d`, with `d` at least 1 and inside both
vectors. -/
theorem differentElemIndex_eq (t o : List Str) (d : Nat) (hd0 : 1 ≤ d) (hdt : d < t.length)
    (hdo : d < o.length) (hsame : t.take d = o.take d) (hdiff : t.getD d [] ≠ o.getD d []) :
    differentElemIndex t o = d := by
  have hbefore : ∀ j, j < d → t.getD j [] = o.getD j [] := by
    intro j hj
    have h1 : (t.take d).getD j [] = t.getD j [] := by
      rw [List.getD_eq_getElem?_getD, List.getD_eq_getElem?_getD, List.getElem?_take_of_lt hj]
    have h2 : (o.take d).getD j [] = o.getD j [] := by
      rw [List.getD_eq_getElem?_getD, List.getD_eq_getElem?_getD, List.getElem?_take_of_lt hj]
    rw [← h1, ← h2, hsame]
  unfold differentElemIndex
  simp only
  rw [find_range_first _ 1 d _ hd0 (by split <;> omega)
    (by simpa [compare_path_element] using hdiff)
    (fun j _ hj => by simpa [compare_path_element] using hbefore j hj)]

/-- For a path constructed from a raw string that is not relative: the
elements after the first are not empty, hold no separator and no backslash,
passed the validation and are not ".", and a scan of them finds nothing to
erase. -/
theorem initialize_path_rooted_elems (s : Str) (p : basic_path)
    (h : initialize_path s = .returns p) (hrel : p.relative = false) :
    (∀ e ∈ p.path_elems.drop 1,
      e ≠ [] ∧ '/' ∉ e ∧ '\\' ∉ e ∧ validate_elem e = none ∧ e ≠ ['.']) ∧
    rde_scan (p.path_elems.drop 1) = none := by
  rcases initialize_path_returns_rest s p h with ⟨h1, _⟩ | ⟨p0, k, hr, hdbl, hhead, hroot, hdot⟩
  · rw [List.drop_of_length_le (by omega)]
    exact ⟨fun e he => absurd he (List.not_mem_nil e), rfl⟩
  · obtain ⟨f1, _, _, hval, hel, hscan, hnd⟩ :=
      initialize_rest_elems p0 p _ k hr (map_backslash_free s) hdbl hhead hroot hdot
    have hrooted : (p0.drive_specified || p0.unc_path || !p0.relative) = true := by
      rw [← f1, hrel]
      simp
    rw [if_pos hrooted] at hel hscan
    refine ⟨fun e he => ?_, hscan⟩
    obtain ⟨a, b, c⟩ := hel e he
    exact ⟨a, b, c, hval e (List.mem_of_mem_drop he), hnd hrooted e he⟩

/-- C23. For a target that is not relative and an origin, both left
unchanged by `full_path` (the platform call taken as the identity), whose
elements agree before index `d` and differ at `d`, with `d` at least 1 (the
root is the same) and smaller than both lengths: `from` returns the relative
path made of one ".." for every element of the origin from `d` on, followed
by the elements of the target from `d` on. -/
theorem path_from_diverging (target origin : basic_path) (d : Nat)
    (ht : full_path id target = .returns target) (ho : full_path id origin = .returns origin)
    (habs : target.relative = false) (hd0 : 1 ≤ d)
    (hdt : d < target.path_elems.length) (hdo : d < origin.path_elems.length)
    (hsame : target.path_elems.take d = origin.path_elems.take d)
    (hdiff : target.path_elems.getD d [] ≠ origin.path_elems.getD d []) :
    path_from id target origin
      = .returns ⟨List.replicate (origin.path_elems.length - d) doubleElipses
          ++ target.path_elems.drop d, true, false, false⟩ := by
  obtain ⟨hel, hscan⟩ := initialize_path_rooted_elems _ target ht habs
  have hroot : target.path_elems.getD 0 [] = origin.path_elems.getD 0 [] := by
    have h1 : (target.path_elems.take d).getD 0 [] = target.path_elems.getD 0 [] := by
      rw [List.getD_eq_getElem?_getD, List.getD_eq_getElem?_getD,
        List.getElem?_take_of_lt (by omega)]
    have h2 : (origin.path_elems.take d).getD 0 [] = origin.path_elems.getD 0 [] := by
      rw [List.getD_eq_getElem?_getD, List.getD_eq_getElem?_getD,
        List.getElem?_take_of_lt (by omega)]
    rw [← h1, ← h2, hsame]
  have hdrop : target.path_elems.drop d = (target.path_elems.drop 1).drop (d - 1) := by
    rw [List.drop_drop]
    congr 1
    omega
  obtain ⟨k, hk⟩ : ∃ k, origin.path_elems.length - d = k + 1 :=
    ⟨origin.path_elems.length - d - 1, by omega⟩
  unfold path_from
  rw [ht, ho]
  simp only [Outcome.bind, hroot, compare_path_element, beq_self_eq_true, Bool.not_true,
    Bool.false_eq_true, if_false]
  rw [differentElemIndex_eq _ _ d hd0 hdt hdo hsame hdiff, flatten_replicate_dotdot]
  have hdowns : ((target.path_elems.drop d).map (· ++ ['/'])).flatten
      = slash_terminated (target.path_elems.drop d) := rfl
  rw [hdowns, ← slash_terminated_append, hk, List.replicate_succ, List.cons_append]
  apply initialize_path_rel_terminated
  · intro e he
    rcases List.mem_append.mp he with h | h
    · rw [List.eq_of_mem_replicate h]
      decide
    · rw [hdrop] at h
      exact hel e (List.mem_of_mem_drop h)
  · rw [← List.cons_append, ← List.replicate_succ]
    apply rde_scan_replicate_dotdot
    rw [hdrop]
    exact rde_scan_drop_none _ _ hscan

/-- C23 at the target `/x/y/z` and the origin `/x/w`: with the root as
element 0 the elements first differ at index 2, and the result has the
elements "..", "y", "z". -/
theorem path_from_diverging_witness :
    path_from id ⟨["/".toList, "x".toList, "y".toList, "z".toList], false, false, false⟩
        ⟨["/".toList, "x".toList, "w".toList], false, false, false⟩
      = .returns ⟨["..".toList, "y".toList, "z".toList], true, false, false⟩ :=
  path_from_diverging
    ⟨["/".toList, "x".toList, "y".toList, "z".toList], false, false, false⟩
    ⟨["/".toList, "x".toList, "w".toList], false, false, false⟩ 2
    (by decide) (by decide) (by decide) (by decide) (by decide) (by decide) (by decide)
    (by decide)

/-! ## The recursive scan of a directory tree -/

/-- The loop over the subdirectories gives the same outcome when its calls
are given a larger nesting depth. -/
theorem scan_subdirs_loop_mono
    (call call2 : basic_path → List basic_path → Option (Outcome (List basic_path)))
    (h : ∀ it rs o, call it rs = some o → call2 it rs = some o)
    (l : List basic_path) (rs : List basic_path) (o : Outcome (List basic_path))
    (hl : scan_subdirs_loop call l rs = some o) : scan_subdirs_loop call2 l rs = some o := by
  induction l generalizing rs with
  | nil => exact hl
  | cons it rest ih =>
    rw [scan_subdirs_loop] at hl ⊢
    cases hc : call it rs with
    | none => simp [hc] at hl
    | some x =>
      rw [h it rs x hc]
      rw [hc] at hl
      cases x with
      | returns r => exact ih r hl
      | throws e => exact hl
      | hangs => exact hl

/-- A call of the helper that finishes within a nesting depth finishes with
the same outcome within the next. -/
theorem helper_mono_succ (os : os_calls) (n : Nat) (p : basic_path) (pattern : Str)
    (rs : List basic_path) (o : Outcome (List basic_path))
    (h : directory_scan_subdirs_for_files_helper os n p pattern rs = some o) :
    directory_scan_subdirs_for_files_helper os (n + 1) p pattern rs = some o := by
  induction n generalizing p rs o with
  | zero => simp [directory_scan_subdirs_for_files_helper] at h
  | succ n ih =>
    rw [directory_scan_subdirs_for_files_helper] at h ⊢
    cases hf : directory_get_files os p pattern with
    | throws e => simpa [hf] using h
    | hangs => simpa [hf] using h
    | returns fs =>
      simp only [hf] at h ⊢
      cases hs : directory_get_subdirs os p [] with
      | throws e => simpa [hs] using h
      | hangs => simpa [hs] using h
      | returns ss =>
        simp only [hs] at h ⊢
        exact scan_subdirs_loop_mono _ _ (fun it rs o => ih it rs o) ss _ o h

/-- A call of the helper that finishes within a nesting depth finishes with
the same outcome within every larger one. -/
theorem helper_mono (os : os_calls) (n m : Nat) (hnm : n ≤ m) (p : basic_path) (pattern : Str)
    (rs : List basic_path) (o : Outcome (List basic_path))
    (h : directory_scan_subdirs_for_files_helper os n p pattern rs = some o) :
    directory_scan_subdirs_for_files_helper os m p pattern rs = some o := by
  induction hnm with
  | refl => exact h
  | step _ ih => exact helper_mono_succ os _ p pattern rs o ih

/-- The outcome of a call of the helper does not depend on the nesting depth
within which it finishes. -/
theorem helper_depth_irrelevant (os : os_calls) (n m : Nat) (p : basic_path) (pattern : Str)
    (rs : List basic_path) (o1 o2 : Outcome (List basic_path))
    (h1 : directory_scan_subdirs_for_files_helper os n p pattern rs = some o1)
    (h2 : directory_scan_subdirs_for_files_helper os m p pattern rs = some o2) : o1 = o2 := by
  have a := helper_mono os n (max n m) (le_max_left _ _) p pattern rs o1 h1
  have b := helper_mono os m (max n m) (le_max_right _ _) p pattern rs o2 h2
  rw [a] at b
  exact Option.some.inj b

/-- The loop over the subdirectories finishes when its calls do. -/
theorem scan_subdirs_loop_total
    (call : basic_path → List basic_path → Option (Outcome (List basic_path)))
    (l : List basic_path) (h : ∀ s ∈ l, ∀ rs, ∃ o, call s rs = some o)
    (rs : List basic_path) : ∃ o, scan_subdirs_loop call l rs = some o := by
  induction l generalizing rs with
  | nil => exact ⟨_, rfl⟩
  | cons it rest ih =>
    obtain ⟨x, hx⟩ := h it (List.mem_cons_self _ _) rs
    rw [scan_subdirs_loop, hx]
    cases x with
    | returns r => exact ih (fun s hs => h s (List.mem_cons_of_mem _ hs)) r
    | throws e => exact ⟨_, rfl⟩
    | hangs => exact ⟨_, rfl⟩

/-- Over a tree in which every subdirectory that is listed stands lower than
its directory, a call of the helper finishes within every nesting depth
above the height of its directory. -/
theorem helper_total (os : os_calls) (rank : basic_path → Nat)
    (hacyclic : ∀ d subdirs, directory_get_subdirs os d [] = .returns subdirs →
      ∀ s ∈ subdirs, rank s < rank d)
    (n : Nat) (p : basic_path) (pattern : Str) (rs : List basic_path) (hn : rank p < n) :
    ∃ o, directory_scan_subdirs_for_files_helper os n p pattern rs = some o := by
  induction n generalizing p rs with
  | zero => omega
  | succ n ih =>
    rw [directory_scan_subdirs_for_files_helper]
    cases hf : directory_get_files os p pattern with
    | throws e => exact ⟨_, rfl⟩
    | hangs => exact ⟨_, rfl⟩
    | returns fs =>
      simp only
      cases hs : directory_get_subdirs os p [] with
      | throws e => exact ⟨_, rfl⟩
      | hangs => exact ⟨_, rfl⟩
      | returns ss =>
        simp only
        apply scan_subdirs_loop_total
        intro s hmem rs2
        exact ih s rs2 (by have := hacyclic p ss hs s hmem; omega)


/-! ## The scan over the whole subtree -/

end filesystem
